import Mathlib

/-!
Verification development for the access-driven memory reconsolidation engine
(access logger, transcript extractor, energy map, reconsolidation pipeline,
mirror analyzer).

Conventions of the embedding:
* Python floats are modelled as `ℚ` in the access store / extractor / mirror
  (no transcendental arithmetic occurs there) and as `ℝ` in the energy map and
  the numeric pipeline (which use `exp`, `log`, `sqrt`, `cos`).
* SQLite tables are modelled as association lists in row order; a `PRIMARY KEY`
  column is reflected by a `Nodup` hypothesis where a theorem needs it.
* Python's truthiness quirk `x or default` (which replaces both `None` and `0`
  by the default) is modelled explicitly wherever the source relies on it.
-/

/-! ## Access store (`access_logger.py`) -/

/-- A result record as passed to `log_event`: a JSON dict with the optional
keys the source reads (`file`, `path`, `lines`, `line`, `score`). -/
structure ResultRec where
  file : Option String := none
  path : Option String := none
  lines : Option String := none
  line : Option String := none
  score : Option ℚ := none
deriving DecidableEq

/-- Source line `f"{r.get('file', r.get('path', '?'))}:{r.get('lines', r.get('line', '?'))}"`
from `log_event`. -/
def recKey (r : ResultRec) : String :=
  (r.file.getD (r.path.getD "?")) ++ ":" ++ (r.lines.getD (r.line.getD "?"))

/-- Source line `r.get("score", 0.5)` — the score used for the chunk-energy update. -/
def energyScore (r : ResultRec) : ℚ := r.score.getD (1 / 2)

/-- Source line `r.get("score", 0)` — the score used in the `top_score` maximum. -/
def topScoreOf (r : ResultRec) : ℚ := r.score.getD 0

/-- Maximum of a list of rationals, `none` on the empty list. -/
def listMaxQ : List ℚ → Option ℚ
  | [] => none
  | x :: xs => some (match listMaxQ xs with | none => x | some m => max x m)

/-- Python's `max(gen, default=0)`. -/
def pyMax0 (l : List ℚ) : ℚ := (listMaxQ l).getD 0

/-- One row of the `chunk_energy` table. -/
structure EnergyRow where
  total_accesses : ℕ
  total_score : ℚ
  last_accessed : ℚ
  first_accessed : ℚ
deriving DecidableEq

/-- One row of the `access_events` table. -/
structure AccessEvent where
  timestamp : ℚ
  session_id : Option String
  query : String
  results : List ResultRec
  n_results : ℕ
  top_score : ℚ
deriving DecidableEq

/-- The access store: the `access_events` and `chunk_energy` tables. -/
structure AccessStore where
  events : List AccessEvent := []
  energy : List (String × EnergyRow) := []
deriving DecidableEq

/-- Source line `ts = timestamp or time.time()`: Python replaces both `None` and the
falsy value `0.0` by the current clock. -/
def effTs (timestamp : Option ℚ) (now : ℚ) : ℚ :=
  match timestamp with
  | none => now
  | some t => if t = 0 then now else t

/-- The per-record `chunk_energy` update of `log_event`: `UPDATE` the existing
row for `key` (accesses + 1, score + s, `last_accessed := ts`) or `INSERT` a
fresh row `(1, s, ts, ts)`. -/
def bump_energy (key : String) (s ts : ℚ) :
    List (String × EnergyRow) → List (String × EnergyRow)
  | [] => [(key, ⟨1, s, ts, ts⟩)]
  | (k, e) :: rest =>
      if k = key then
        (k, ⟨e.total_accesses + 1, e.total_score + s, ts, e.first_accessed⟩) :: rest
      else (k, e) :: bump_energy key s ts rest

/-- Source line `log_event(query, results, session_id, timestamp)` evaluated at clock
`now`: append the event row and fold the energy update over the results. -/
def log_event (query : String) (results : List ResultRec) (session_id : Option String)
    (timestamp : Option ℚ) (now : ℚ) (st : AccessStore) : AccessStore :=
  let ts := effTs timestamp now
  let top := pyMax0 (results.map topScoreOf)
  { events := st.events ++ [⟨ts, session_id, query, results, results.length, top⟩],
    energy := results.foldl (fun en r => bump_energy (recKey r) (energyScore r) ts en) st.energy }

/-- One invocation of `log_event` (arguments plus the wall clock at the call). -/
structure LogCall where
  query : String := ""
  results : List ResultRec := []
  session_id : Option String := none
  timestamp : Option ℚ := none
  now : ℚ := 0
deriving DecidableEq

/-- Run one logged call against a store. -/
def applyCall (st : AccessStore) (c : LogCall) : AccessStore :=
  log_event c.query c.results c.session_id c.timestamp c.now st

/-- Run a sequence of `log_event` calls against the empty store. -/
def runCalls (cs : List LogCall) : AccessStore := cs.foldl applyCall {}

/-- Lookup in the `chunk_energy` table by `chunk_key`. -/
def lookupE : List (String × EnergyRow) → String → Option EnergyRow
  | [], _ => none
  | (k', e) :: rest, k => if k' = k then some e else lookupE rest k

/-- The effective timestamp of a call. -/
def callTs (c : LogCall) : ℚ := effTs c.timestamp c.now

/-- The result records of a call naming chunk key `k`. -/
def hitsIn (c : LogCall) (k : String) : List ResultRec :=
  c.results.filter (fun r => recKey r == k)

/-- Number of result records naming `k` across a sequence of calls. -/
def hitCount (cs : List LogCall) (k : String) : ℕ :=
  (cs.map (fun c => (hitsIn c k).length)).sum

/-- Sum of the scores (a missing score counting 0.5) of the records naming `k`. -/
def hitSum (cs : List LogCall) (k : String) : ℚ :=
  (cs.map (fun c => ((hitsIn c k).map energyScore).sum)).sum

/-- Effective timestamps of the calls having at least one record naming `k`. -/
def tsList (cs : List LogCall) (k : String) : List ℚ :=
  (cs.filter (fun c => !(hitsIn c k).isEmpty)).map callTs

/-- The combined effect on one `chunk_energy` row of `m` hits with score sum
`s` at a common timestamp `t`. -/
def applyHits (m : ℕ) (s t : ℚ) : Option EnergyRow → Option EnergyRow
  | none => if m = 0 then none else some ⟨m, s, t, t⟩
  | some e =>
      if m = 0 then some e
      else some ⟨e.total_accesses + m, e.total_score + s, t, e.first_accessed⟩

lemma lookup_bump_self (key : String) (s t : ℚ) (en : List (String × EnergyRow)) :
    lookupE (bump_energy key s t en) key = applyHits 1 s t (lookupE en key) := by
  induction en with
  | nil => simp [bump_energy, lookupE, applyHits]
  | cons p rest ih =>
      obtain ⟨k', e⟩ := p
      by_cases h : k' = key
      · subst h; simp [bump_energy, lookupE, applyHits]
      · simp [bump_energy, lookupE, h, ih]

lemma lookup_bump_ne (key k : String) (hne : k ≠ key) (s t : ℚ)
    (en : List (String × EnergyRow)) :
    lookupE (bump_energy key s t en) k = lookupE en k := by
  have hke : ¬ key = k := fun h => hne h.symm
  induction en with
  | nil => simp [bump_energy, lookupE, hke]
  | cons p rest ih =>
      obtain ⟨k', e⟩ := p
      by_cases h : k' = key
      · subst h; simp [bump_energy, lookupE, hke]
      · by_cases h2 : k' = k
        · subst h2; simp [bump_energy, lookupE, h]
        · simp [bump_energy, lookupE, h, h2, ih]

lemma applyHits_one (m : ℕ) (s s₁ t : ℚ) (o : Option EnergyRow)
    (hs : m = 0 → s = 0) :
    applyHits m s t (applyHits 1 s₁ t o) = applyHits (m + 1) (s₁ + s) t o := by
  rcases Nat.eq_zero_or_pos m with hm | hm
  · subst hm
    rw [hs rfl]
    cases o <;> simp [applyHits]
  · have hm' : m ≠ 0 := Nat.pos_iff_ne_zero.mp hm
    cases o with
    | none =>
        simp [applyHits, hm', EnergyRow.mk.injEq]
        omega
    | some e =>
        simp [applyHits, hm', EnergyRow.mk.injEq]
        constructor
        · omega
        · ring

lemma lookup_fold_results (rs : List ResultRec) (t : ℚ) (en : List (String × EnergyRow))
    (k : String) :
    lookupE (rs.foldl (fun en r => bump_energy (recKey r) (energyScore r) t en) en) k
      = applyHits (rs.filter (fun r => recKey r == k)).length
          ((rs.filter (fun r => recKey r == k)).map energyScore).sum t (lookupE en k) := by
  induction rs generalizing en with
  | nil =>
      cases h : lookupE en k <;> simp [applyHits, h]
  | cons r rest ih =>
      rw [List.foldl_cons, ih]
      by_cases h : recKey r = k
      · subst h
        rw [lookup_bump_self]
        have hfil : (r :: rest).filter (fun r' => recKey r' == recKey r)
            = r :: rest.filter (fun r' => recKey r' == recKey r) := by
          simp [List.filter_cons]
        rw [hfil]
        simp only [List.length_cons, List.map_cons, List.sum_cons]
        rw [applyHits_one]
        intro hlen
        have : rest.filter (fun r' => recKey r' == recKey r) = [] :=
          List.length_eq_zero.mp hlen
        simp [this]
      · have hfil : (r :: rest).filter (fun r' => recKey r' == k)
            = rest.filter (fun r' => recKey r' == k) := by
          simp [List.filter_cons, h]
        rw [hfil, lookup_bump_ne _ _ (fun hk => h hk.symm)]

lemma lookup_applyCall (st : AccessStore) (c : LogCall) (k : String) :
    lookupE (applyCall st c).energy k
      = applyHits (hitsIn c k).length ((hitsIn c k).map energyScore).sum (callTs c)
          (lookupE st.energy k) := by
  simp only [applyCall, log_event, hitsIn, callTs]
  exact lookup_fold_results _ _ _ _

lemma tsList_append (cs : List LogCall) (c : LogCall) (k : String) :
    tsList (cs ++ [c]) k
      = tsList cs k ++ (if hitsIn c k = [] then [] else [callTs c]) := by
  by_cases h : hitsIn c k = [] <;>
    simp [tsList, List.filter_append, h, List.isEmpty_iff]

lemma hitCount_append (cs : List LogCall) (c : LogCall) (k : String) :
    hitCount (cs ++ [c]) k = hitCount cs k + (hitsIn c k).length := by
  simp [hitCount]

lemma hitSum_append (cs : List LogCall) (c : LogCall) (k : String) :
    hitSum (cs ++ [c]) k = hitSum cs k + ((hitsIn c k).map energyScore).sum := by
  simp [hitSum]

lemma tsList_nil_zero (cs : List LogCall) (k : String) (h : tsList cs k = []) :
    hitCount cs k = 0 ∧ hitSum cs k = 0 := by
  have hfil : cs.filter (fun c => !(hitsIn c k).isEmpty) = [] := by
    have h' : (cs.filter (fun c => !(hitsIn c k).isEmpty)).map callTs = [] := h
    exact List.map_eq_nil_iff.mp h'
  have hall : ∀ c ∈ cs, hitsIn c k = [] := by
    intro c hc
    have h2 := List.filter_eq_nil_iff.mp hfil c hc
    simpa [List.isEmpty_iff] using h2
  constructor
  · rw [hitCount]
    apply List.sum_eq_zero
    intro x hx
    obtain ⟨c, hc, rfl⟩ := List.mem_map.mp hx
    simp [hall c hc]
  · rw [hitSum]
    apply List.sum_eq_zero
    intro x hx
    obtain ⟨c, hc, rfl⟩ := List.mem_map.mp hx
    simp [hall c hc]

theorem lookup_runCalls (cs : List LogCall) (k : String) :
    lookupE (runCalls cs).energy k
      = (tsList cs k).head?.map (fun t =>
          ⟨hitCount cs k, hitSum cs k, ((tsList cs k).getLast?).getD t, t⟩) := by
  induction cs using List.reverseRecOn with
  | nil => simp [runCalls, tsList, lookupE]
  | append_singleton cs c ih =>
      have hrun : runCalls (cs ++ [c]) = applyCall (runCalls cs) c := by
        simp [runCalls, List.foldl_append]
      rw [hrun, lookup_applyCall, ih, tsList_append, hitCount_append, hitSum_append]
      by_cases hc : hitsIn c k = []
      · have h0 : (hitsIn c k).length = 0 := by simp [hc]
        cases htl : (tsList cs k).head? <;>
          simp [hc, h0, applyHits, htl]
      · have h0 : (hitsIn c k).length ≠ 0 := by simpa using hc
        cases htl : tsList cs k with
        | nil =>
            obtain ⟨hcnt, hsum⟩ := tsList_nil_zero cs k htl
            simp [htl, hc, applyHits, h0, hcnt, hsum]
        | cons t₀ rest =>
            have hlast : (t₀ :: (rest ++ [callTs c])).getLast? = some (callTs c) := by
              rw [← List.cons_append]
              exact List.getLast?_concat _
            simp [htl, hc, applyHits, h0, hlast]

lemma head_le_getLast_of_pairwise {l : List ℚ} (hp : l.Pairwise (· ≤ ·)) {a b : ℚ}
    (ha : l.head? = some a) (hb : l.getLast? = some b) : a ≤ b := by
  cases l with
  | nil => cases ha
  | cons x xs =>
      have hax : x = a := by simpa using ha
      subst hax
      have hbm : b ∈ x :: xs := by
        obtain ⟨hne, hbe⟩ := List.mem_getLast?_eq_getLast (by simp [hb] : b ∈ (x :: xs).getLast?)
        exact hbe ▸ List.getLast_mem hne
      rcases List.mem_cons.mp hbm with hbx | hbxs
      · exact le_of_eq hbx.symm
      · exact (List.pairwise_cons.mp hp).1 b hbxs

/-- C2, counterexample to the claim as stated: two `log_event` calls carrying
explicit, decreasing timestamps (100 then 50) for the same chunk key leave the
`chunk_energy` row with `first_accessed = 100 > last_accessed = 50`, violating
the claimed invariant `first_accessed ≤ last_accessed`. -/
theorem c2_counterexample :
    ((lookupE (runCalls
      [{ query := "q1", results := [{ file := some "f", lines := some "1" }],
         timestamp := some 100, now := 7 },
       { query := "q2", results := [{ file := some "f", lines := some "1" }],
         timestamp := some 50, now := 7 }]).energy "f:1").map
        (fun e => (e.total_accesses, e.first_accessed, e.last_accessed))
      = some (2, 100, 50))
    ∧ ¬ ((100 : ℚ) ≤ 50) := by
  exact ⟨by decide, by decide⟩

/-- C2 (amended): for every sequence of `log_event` calls starting from an empty
store and every chunk key `k`, `total_accesses` equals the number of result
records naming `k` and `total_score` the sum of their scores (a missing score
counting 0.5); and provided the effective timestamps of the calls are
nondecreasing (which the claim's `first_accessed ≤ last_accessed` implicitly
assumed), `first_accessed ≤ last_accessed` holds. -/
theorem c2_energy_accumulation (cs : List LogCall) (k : String) :
    ((lookupE (runCalls cs).energy k).map (fun e => e.total_accesses)).getD 0 = hitCount cs k
    ∧ ((lookupE (runCalls cs).energy k).map (fun e => e.total_score)).getD 0 = hitSum cs k
    ∧ ((cs.map callTs).Pairwise (· ≤ ·) →
        ∀ e, lookupE (runCalls cs).energy k = some e →
          e.first_accessed ≤ e.last_accessed) := by
  have hinv := lookup_runCalls cs k
  cases htl : tsList cs k with
  | nil =>
      obtain ⟨hc0, hs0⟩ := tsList_nil_zero cs k htl
      rw [htl] at hinv
      simp [hinv, hc0, hs0]
  | cons t₀ rest =>
      rw [htl] at hinv
      simp only [List.head?_cons, Option.map_some'] at hinv
      refine ⟨by simp [hinv], by simp [hinv], ?_⟩
      intro hpw e he
      rw [hinv] at he
      have hee := Option.some.inj he
      subst hee
      have hsub : List.Sublist (tsList cs k) (cs.map callTs) :=
        List.Sublist.map callTs (List.filter_sublist cs)
      have hpw' : (tsList cs k).Pairwise (· ≤ ·) := hpw.sublist hsub
      rw [htl] at hpw'
      have hne : (t₀ :: rest) ≠ ([] : List ℚ) := List.cons_ne_nil _ _
      have hlast := List.getLast?_eq_getLast_of_ne_nil hne
      simpa [hlast] using
        head_le_getLast_of_pairwise hpw' (by simp) hlast

/-- Concrete input for the C2 witness: two calls with nondecreasing timestamps. -/
def c2input : List LogCall :=
  [{ query := "a", results := [{ file := some "f", lines := some "1" }],
     timestamp := some 100, now := 7 },
   { query := "b", results := [{ file := some "f", lines := some "1" }],
     timestamp := some 200, now := 7 }]

/-- C2 witness: the amended accumulation law evaluated on a concrete
two-call sequence with nondecreasing timestamps. -/
theorem c2_witness :
    (List.Pairwise (· ≤ ·) (c2input.map callTs))
    ∧ ((lookupE (runCalls c2input).energy "f:1").map
        (fun e => e.total_accesses)).getD 0 = hitCount c2input "f:1"
    ∧ ((lookupE (runCalls c2input).energy "f:1").all
        (fun e => decide (e.first_accessed ≤ e.last_accessed))) = true := by
  refine ⟨by decide, (c2_energy_accumulation c2input "f:1").1, ?_⟩
  have h := (c2_energy_accumulation c2input "f:1").2.2 (by decide)
  cases heq : lookupE (runCalls c2input).energy "f:1" with
  | none => rfl
  | some e => exact decide_eq_true (h e heq)

lemma listMaxQ_spec : ∀ (l : List ℚ) (m : ℚ), listMaxQ l = some m →
    m ∈ l ∧ ∀ x ∈ l, x ≤ m := by
  intro l
  induction l with
  | nil => intro m hm; cases hm
  | cons y ys ih =>
      intro m hm
      cases hys : listMaxQ ys with
      | none =>
          cases ys with
          | nil =>
              have hym : y = m := by simpa [listMaxQ] using hm
              subst hym
              exact ⟨List.mem_singleton_self _, by simp⟩
          | cons z zs => simp [listMaxQ] at hys
      | some m' =>
          obtain ⟨hmem, hle⟩ := ih m' hys
          have hmmax : m = max y m' := by
            have := hm
            simp [listMaxQ, hys] at this
            exact this.symm
          subst hmmax
          constructor
          · rcases max_choice y m' with hmx | hmx <;> rw [hmx]
            · exact List.mem_cons_self _ _
            · exact List.mem_cons_of_mem _ hmem
          · intro x hx
            rcases List.mem_cons.mp hx with rfl | hxs
            · exact le_max_left _ _
            · exact (hle x hxs).trans (le_max_right _ _)

lemma pyMax0_le {l : List ℚ} {x : ℚ} (hx : x ∈ l) : x ≤ pyMax0 l := by
  cases hl : listMaxQ l with
  | none =>
      cases l with
      | nil => cases hx
      | cons y ys => simp [listMaxQ] at hl
  | some m =>
      have := (listMaxQ_spec l m hl).2 x hx
      simpa [pyMax0, hl] using this

lemma pyMax0_mem {l : List ℚ} (hl : l ≠ []) : pyMax0 l ∈ l := by
  cases hm : listMaxQ l with
  | none =>
      cases l with
      | nil => exact absurd rfl hl
      | cons y ys => simp [listMaxQ] at hm
  | some m =>
      have := (listMaxQ_spec l m hm).1
      simpa [pyMax0, hm] using this

/-- C4, counterexample to the claim as stated: for the single result record
`{"path": "p", "lines": "3"}` (no `file`, no `score`), `log_event` derives the
chunk key `"p:3"` — the `path` value, not the claimed `"?"` — and stores
`top_score = 0`, not the claimed `0.5`. -/
theorem c4_counterexample :
    recKey { path := some "p", lines := some "3" } = "p:3"
    ∧ "p:3" ≠ "?:3"
    ∧ (log_event "q" [{ path := some "p", lines := some "3" }] none (some 1) 1 {}).events.map
        (fun e => e.top_score) = [0]
    ∧ (0 : ℚ) ≠ 1 / 2 := by
  refine ⟨by decide, by decide, by decide, by norm_num⟩

/-- C4 (amended): a result record with no score contributes 0.5 to the chunk's
`total_score`; a record with no `file` key falls back to `path` (and `lines`
to `line`), the `"?"` component arising only when both are missing; and the
stored event's `top_score` is the maximum over the records of their score with
a *missing score counting 0* — in particular an event whose only record lacks a
score has `top_score` 0, not 0.5 — or 0 when the result list is empty. -/
theorem c4_defaults :
    (∀ (q : String) (r : ResultRec) (sid : Option String) (t : Option ℚ) (now : ℚ)
        (st : AccessStore), r.score = none →
        ((lookupE (log_event q [r] sid t now st).energy (recKey r)).map
            (fun e => e.total_score)).getD 0
          = ((lookupE st.energy (recKey r)).map (fun e => e.total_score)).getD 0 + 1 / 2)
    ∧ (∀ r : ResultRec, r.file = none →
        recKey r = (r.path.getD "?") ++ ":" ++ (r.lines.getD (r.line.getD "?")))
    ∧ (∀ (q : String) (results : List ResultRec) (sid : Option String) (t : Option ℚ)
        (now : ℚ) (st : AccessStore),
        (results = [] →
          ((log_event q results sid t now st).events.getLast?).map (fun e => e.top_score)
            = some 0)
        ∧ (∀ r ∈ results, topScoreOf r
            ≤ (((log_event q results sid t now st).events.getLast?).map
                (fun e => e.top_score)).getD 0)
        ∧ (results ≠ [] → ∃ r ∈ results, topScoreOf r
            = (((log_event q results sid t now st).events.getLast?).map
                (fun e => e.top_score)).getD 0)
        ∧ (∀ r : ResultRec, results = [r] → r.score = none →
            ((log_event q results sid t now st).events.getLast?).map (fun e => e.top_score)
              = some 0)) := by
  refine ⟨?_, ?_, ?_⟩
  · intro q r sid t now st hscore
    have hen : (log_event q [r] sid t now st).energy
        = bump_energy (recKey r) (energyScore r) (effTs t now) st.energy := rfl
    rw [hen, lookup_bump_self]
    have hes : energyScore r = 1 / 2 := by simp [energyScore, hscore]
    cases hst : lookupE st.energy (recKey r) with
    | none => simp [applyHits, hes]
    | some e => simp [applyHits, hes]
  · intro r hfile
    simp [recKey, hfile]
  · intro q results sid t now st
    have hev : (log_event q results sid t now st).events.getLast?
        = some ⟨effTs t now, sid, q, results, results.length,
                pyMax0 (results.map topScoreOf)⟩ := by
      simp [log_event]
    refine ⟨?_, ?_, ?_, ?_⟩
    · intro hnil
      subst hnil
      simp [hev, pyMax0, listMaxQ]
    · intro r hr
      rw [hev]
      simpa using pyMax0_le (List.mem_map_of_mem topScoreOf hr)
    · intro hne
      have hmem : pyMax0 (results.map topScoreOf) ∈ results.map topScoreOf :=
        pyMax0_mem (by simpa using hne)
      obtain ⟨r, hr, hrt⟩ := List.mem_map.mp hmem
      exact ⟨r, hr, by rw [hev]; simpa using hrt⟩
    · intro r hres hscore
      subst hres
      simp [hev, pyMax0, listMaxQ, topScoreOf, hscore]

/-- Concrete record for the C4 witness. -/
def c4rec : ResultRec := { path := some "p", lines := some "3" }

/-- C4 witness: the amended defaults evaluated at the record
`{"path": "p", "lines": "3"}` against the empty store. -/
theorem c4_witness :
    c4rec.score = none
    ∧ ((lookupE (log_event "q" [c4rec] none (some 1) 1 {}).energy (recKey c4rec)).map
        (fun e => e.total_score)).getD 0
        = ((lookupE ({} : AccessStore).energy (recKey c4rec)).map
            (fun e => e.total_score)).getD 0 + 1 / 2
    ∧ c4rec.file = none
    ∧ recKey c4rec = (c4rec.path.getD "?") ++ ":" ++ (c4rec.lines.getD (c4rec.line.getD "?"))
    ∧ ((log_event "q" [c4rec] none (some 1) 1 {}).events.getLast?).map
        (fun e => e.top_score) = some 0 :=
  ⟨rfl, c4_defaults.1 "q" c4rec none (some 1) 1 {} rfl, rfl,
   c4_defaults.2.1 c4rec rfl,
   (c4_defaults.2.2 "q" [c4rec] none (some 1) 1 {}).2.2.2 c4rec rfl rfl⟩

/-! ## Transcript extractor (`extract_sessions.py`) -/

/-- A raw result entry inside a `toolResult` JSON payload, with the fields
`extract_session` reads (`path`, `startLine`, `score`). -/
structure RawResult where
  path : String := ""
  startLine : Option ℤ := none
  score : ℚ := 0
deriving DecidableEq

/-- Source line `str(r.get("startLine", ""))`. -/
def startLineStr (r : RawResult) : String :=
  match r.startLine with
  | none => ""
  | some n => toString n

/-- Python `str.startswith`, modelled on the character list. -/
def strStartsWith (s p : String) : Bool := p.data.isPrefixOf s.data

/-- One content block of a transcript record. A `text` block carries the
outcome of `json.loads` on its text at the parser boundary: `some rs` when the
text parses to a dict holding a `results` list, `none` for every failure
branch (`JSONDecodeError`, `TypeError`, non-dict, missing key). -/
inductive SBlock where
  | toolCall (name : String) (argQuery : String)
  | text (parsed : Option (List RawResult))
  | other
deriving DecidableEq

/-- One line of a session JSONL file, restricted to the fields
`extract_session` reads. `tsParsed` models `datetime.fromisoformat` on the
record's timestamp string: `some t` on success, `none` when the string is
empty or unparseable (both fall back to the wall clock). -/
structure SObj where
  id : String := ""
  parentId : Option String := none
  tsParsed : Option ℚ := none
  role : String := ""
  content : Option (List SBlock) := none
deriving DecidableEq

/-- The first record whose `parentId` equals the call id and whose message role
is `toolResult` (the `continue`/`break` structure of the source's inner loop). -/
def findToolResult (lines : List SObj) (callId : String) : Option SObj :=
  lines.find? (fun o => o.parentId == some callId && o.role == "toolResult")

/-- The result records one content block contributes: text blocks parsed,
`sessions/`-prefixed paths dropped, survivors mapped to the canonical
`{file, lines, score}` shape. -/
def blockResults (b : SBlock) : List ResultRec :=
  match b with
  | SBlock.text (some rs) =>
      rs.filterMap (fun r =>
        if strStartsWith r.path "sessions/" then none
        else some { file := some r.path, lines := some (startLineStr r),
                    score := some r.score })
  | _ => []

/-- All result records collected from a matching `toolResult` record. -/
def resultsFromObj (o : SObj) : List ResultRec :=
  match o.content with
  | none => []
  | some blocks => blocks.foldl (fun acc b => acc ++ blockResults b) []

/-- The `log_event` calls `extract_session` makes for one transcript record:
one per `memory_search` `toolCall` block with a nonempty query, paired with
the filtered results of its matching `toolResult`. -/
def callsOfObj (lines : List SObj) (sessionId : String) (now : ℚ) (o : SObj) :
    List LogCall :=
  match o.content with
  | none => []
  | some blocks =>
      blocks.filterMap (fun b =>
        match b with
        | SBlock.toolCall nm q =>
            if nm = "memory_search" ∧ q ≠ "" then
              some { query := q,
                     results := (match findToolResult lines o.id with
                                 | none => []
                                 | some o2 => resultsFromObj o2),
                     session_id := some sessionId,
                     timestamp := some (o.tsParsed.getD now),
                     now := now }
            else none
        | _ => none)

/-- Source line `extract_session(session_path)`: `none` models an unreadable file or a
malformed JSON line (the source returns 0 there); otherwise the logged calls
together with their count. -/
def extract_session (tr : Option (List SObj)) (sessionId : String) (now : ℚ) :
    List LogCall × ℕ :=
  match tr with
  | none => ([], 0)
  | some lines =>
      let evs := (lines.map (callsOfObj lines sessionId now)).flatten
      (evs, evs.length)

lemma mem_foldl_append {α β : Type} (g : β → List α) (bs : List β) (init : List α)
    (x : α) :
    x ∈ bs.foldl (fun acc b => acc ++ g b) init ↔ x ∈ init ∨ ∃ b ∈ bs, x ∈ g b := by
  induction bs generalizing init with
  | nil => simp
  | cons b rest ih =>
      rw [List.foldl_cons, ih]
      simp [List.mem_append, or_assoc]

lemma blockResults_no_sessions {b : SBlock} {r : ResultRec} (hr : r ∈ blockResults b) :
    strStartsWith (r.file.getD "") "sessions/" = false := by
  cases b with
  | toolCall nm q => cases hr
  | other => cases hr
  | text parsed =>
      cases parsed with
      | none => cases hr
      | some rs =>
          obtain ⟨raw, _, hmk⟩ := List.mem_filterMap.mp hr
          cases hs : strStartsWith raw.path "sessions/" with
          | true => simp [hs] at hmk
          | false =>
              simp only [hs] at hmk
              rw [if_neg (by simp)] at hmk
              have := Option.some.inj hmk
              rw [← this]
              simpa using hs

lemma resultsFromObj_eq (o : SObj) :
    resultsFromObj o = (match o.content with
      | none => []
      | some blocks => blocks.foldl (fun acc b => acc ++ blockResults b) []) := rfl

lemma callsOfObj_results_filtered {lines : List SObj} {sessionId : String} {now : ℚ}
    {o : SObj} {c : LogCall} (hc : c ∈ callsOfObj lines sessionId now o) :
    ∀ r ∈ c.results, strStartsWith (r.file.getD "") "sessions/" = false := by
  intro r hr
  cases hcont : o.content with
  | none => rw [callsOfObj, hcont] at hc; cases hc
  | some blocks =>
      rw [callsOfObj, hcont] at hc
      obtain ⟨b, _, hb⟩ := List.mem_filterMap.mp hc
      cases b with
      | text parsed => cases hb
      | other => cases hb
      | toolCall nm q =>
          have hb' : (if nm = "memory_search" ∧ q ≠ "" then
              some ({ query := q,
                      results := (match findToolResult lines o.id with
                                  | none => []
                                  | some o2 => resultsFromObj o2),
                      session_id := some sessionId,
                      timestamp := some (o.tsParsed.getD now),
                      now := now } : LogCall)
            else none) = some c := hb
          by_cases hcond : nm = "memory_search" ∧ q ≠ ""
          · rw [if_pos hcond] at hb'
            have hcc := Option.some.inj hb'
            rw [← hcc] at hr
            simp only at hr
            cases hfind : findToolResult lines o.id with
            | none => rw [hfind] at hr; cases hr
            | some o2 =>
                rw [hfind] at hr
                simp only at hr
                cases hcont2 : o2.content with
                | none => rw [resultsFromObj_eq, hcont2] at hr; cases hr
                | some blocks2 =>
                    rw [resultsFromObj_eq, hcont2] at hr
                    rcases (mem_foldl_append blockResults blocks2 [] r).mp hr with
                      hnil | ⟨blk, _, hblk⟩
                    · cases hnil
                    · exact blockResults_no_sessions hblk
          · rw [if_neg hcond] at hb'; cases hb'

lemma events_of_fold {cs : List LogCall} {st : AccessStore} {ev : AccessEvent}
    (hev : ev ∈ (cs.foldl applyCall st).events) :
    ev ∈ st.events ∨ ∃ c ∈ cs, ev.results = c.results := by
  induction cs generalizing st with
  | nil => exact Or.inl hev
  | cons c rest ih =>
      rw [List.foldl_cons] at hev
      rcases ih hev with hin | ⟨c', hc', hres⟩
      · rcases List.mem_append.mp hin with hin' | hin'
        · exact Or.inl hin'
        · refine Or.inr ⟨c, List.mem_cons_self _ _, ?_⟩
          have : ev = ⟨effTs c.timestamp c.now, c.session_id, c.query, c.results,
              c.results.length, pyMax0 (c.results.map topScoreOf)⟩ := by
            simpa using hin'
          rw [this]
      · exact Or.inr ⟨c', List.mem_cons_of_mem _ hc', hres⟩

lemma energy_prov_bump {key : String} {s t : ℚ} {en : List (String × EnergyRow)}
    {p : String × EnergyRow} (hp : p ∈ bump_energy key s t en) :
    p.1 = key ∨ p ∈ en := by
  induction en with
  | nil =>
      rcases List.mem_singleton.mp hp with rfl
      exact Or.inl rfl
  | cons q rest ih =>
      obtain ⟨k', e⟩ := q
      by_cases h : k' = key
      · rw [bump_energy, if_pos h] at hp
        rcases List.mem_cons.mp hp with rfl | hrest
        · exact Or.inl h
        · exact Or.inr (List.mem_cons_of_mem _ hrest)
      · rw [bump_energy, if_neg h] at hp
        rcases List.mem_cons.mp hp with rfl | hrest
        · exact Or.inr (List.mem_cons_self _ _)
        · rcases ih hrest with hk | hin
          · exact Or.inl hk
          · exact Or.inr (List.mem_cons_of_mem _ hin)

lemma energy_prov_results {rs : List ResultRec} {t : ℚ} {en : List (String × EnergyRow)}
    {p : String × EnergyRow}
    (hp : p ∈ rs.foldl (fun en r => bump_energy (recKey r) (energyScore r) t en) en) :
    (∃ r ∈ rs, p.1 = recKey r) ∨ p ∈ en := by
  induction rs generalizing en with
  | nil => exact Or.inr hp
  | cons r rest ih =>
      rw [List.foldl_cons] at hp
      rcases ih hp with ⟨r', hr', hk⟩ | hin
      · exact Or.inl ⟨r', List.mem_cons_of_mem _ hr', hk⟩
      · rcases energy_prov_bump hin with hk | hin'
        · exact Or.inl ⟨r, List.mem_cons_self _ _, hk⟩
        · exact Or.inr hin'

lemma energy_prov_calls {cs : List LogCall} {st : AccessStore} {p : String × EnergyRow}
    (hp : p ∈ (cs.foldl applyCall st).energy) :
    (∃ c ∈ cs, ∃ r ∈ c.results, p.1 = recKey r) ∨ p ∈ st.energy := by
  induction cs generalizing st with
  | nil => exact Or.inr hp
  | cons c rest ih =>
      rw [List.foldl_cons] at hp
      rcases ih hp with ⟨c', hc', hwit⟩ | hin
      · exact Or.inl ⟨c', List.mem_cons_of_mem _ hc', hwit⟩
      · rcases energy_prov_results hin with ⟨r, hr, hk⟩ | hin'
        · exact Or.inl ⟨c, List.mem_cons_self _ _, r, hr, hk⟩
        · exact Or.inr hin'

/-- C6: for every session transcript processed by the Extractor, every parsed
result record whose path starts with `sessions/` is dropped before the event
is logged: no logged call, no stored event, and no chunk-energy row derives
from a `sessions/`-prefixed record. -/
theorem c6_session_filter (tr : Option (List SObj)) (sid : String) (now : ℚ) :
    (∀ c ∈ (extract_session tr sid now).1, ∀ r ∈ c.results,
        strStartsWith (r.file.getD "") "sessions/" = false)
    ∧ (∀ ev ∈ (runCalls (extract_session tr sid now).1).events, ∀ r ∈ ev.results,
        strStartsWith (r.file.getD "") "sessions/" = false)
    ∧ (∀ p ∈ (runCalls (extract_session tr sid now).1).energy,
        ∃ c ∈ (extract_session tr sid now).1, ∃ r ∈ c.results,
          p.1 = recKey r ∧ strStartsWith (r.file.getD "") "sessions/" = false) := by
  have h1 : ∀ c ∈ (extract_session tr sid now).1, ∀ r ∈ c.results,
      strStartsWith (r.file.getD "") "sessions/" = false := by
    intro c hc r hr
    cases tr with
    | none => cases hc
    | some lines =>
        have hc' : c ∈ (lines.map (callsOfObj lines sid now)).flatten := hc
        obtain ⟨l, hl, hcl⟩ := List.mem_flatten.mp hc'
        obtain ⟨o, _, rfl⟩ := List.mem_map.mp hl
        exact callsOfObj_results_filtered hcl r hr
  refine ⟨h1, ?_, ?_⟩
  · intro ev hev r hr
    rcases events_of_fold hev with hnil | ⟨c, hc, hres⟩
    · cases hnil
    · rw [hres] at hr
      exact h1 c hc r hr
  · intro p hp
    rcases energy_prov_calls hp with ⟨c, hc, r, hr, hk⟩ | hnil
    · exact ⟨c, hc, r, hr, hk, h1 c hc r hr⟩
    · cases hnil

/-- Concrete transcript for the C6 witness: one `memory_search` call whose
result carries a `sessions/` path and a memory path. -/
def c6transcript : List SObj :=
  [{ id := "c1", tsParsed := some 10, role := "assistant",
     content := some [SBlock.toolCall "memory_search" "find bar"] },
   { id := "r1", parentId := some "c1", role := "toolResult",
     content := some [SBlock.text (some
       [{ path := "sessions/foo", startLine := some 1, score := 1 },
        { path := "memory/bar.md", startLine := some 3, score := 1 }])] }]

/-- The single call the C6 witness transcript extracts. -/
def c6call : LogCall :=
  { query := "find bar",
    results := [{ file := some "memory/bar.md", lines := some "3", score := some 1 }],
    session_id := some "s1", timestamp := some 10, now := 99 }

/-- C6 witness: on a concrete transcript holding one `sessions/` result and one
memory result, exactly the memory result survives, and the session-filter
theorem applies to it. -/
theorem c6_witness :
    (extract_session (some c6transcript) "s1" 99).1 = [c6call]
    ∧ strStartsWith
        ((({ file := some "memory/bar.md", lines := some "3",
             score := some 1 } : ResultRec)).file.getD "") "sessions/" = false := by
  refine ⟨by decide, ?_⟩
  exact (c6_session_filter (some c6transcript) "s1" 99).1 c6call (by decide)
    { file := some "memory/bar.md", lines := some "3", score := some 1 } (by decide)

/-- One row of the `processed_sessions` table. -/
structure ProcRow where
  session_id : String
  processed_at : ℚ
  events_extracted : ℕ
deriving DecidableEq

/-- The extractor's persistent state: the `processed_sessions` table and the
access store it logs into. -/
structure SessState where
  processed : List ProcRow := []
  store : AccessStore := {}
deriving DecidableEq

/-- Source line `INSERT OR REPLACE INTO processed_sessions` keyed by `session_id`. -/
def mark_processed (sid : String) (now : ℚ) (events : ℕ) (ps : List ProcRow) :
    List ProcRow :=
  if ps.any (fun p => p.session_id == sid) then
    ps.map (fun p => if p.session_id == sid then ⟨sid, now, events⟩ else p)
  else ps ++ [⟨sid, now, events⟩]

/-- The `session_id` column of the `processed_sessions` table. -/
def processedIds (ps : List ProcRow) : List String := ps.map (fun p => p.session_id)

/-- The extractor `main` loop over the session files, with the set of already
processed ids fixed before the loop (as the source computes it). -/
def extractorLoop (fixed : List String) (now : ℚ)
    (sessions : List (String × Option (List SObj))) (st : SessState) : SessState :=
  sessions.foldl (fun acc s =>
    if s.1 ∈ fixed then acc
    else
      { processed := mark_processed s.1 now (extract_session s.2 s.1 now).2 acc.processed,
        store := (extract_session s.2 s.1 now).1.foldl applyCall acc.store }) st

/-- Source line `main()` of the extractor: `processed = get_processed_sessions() if not
reprocess else set()`, then scan every session file, skipping processed ids and
marking every scanned session — whatever its event count. -/
def extractor_main (sessions : List (String × Option (List SObj))) (reprocess : Bool)
    (now : ℚ) (st : SessState) : SessState :=
  extractorLoop (if reprocess then [] else processedIds st.processed) now sessions st

lemma processedIds_mark (sid : String) (now : ℚ) (events : ℕ) (ps : List ProcRow) :
    processedIds (mark_processed sid now events ps)
      = if ps.any (fun p => p.session_id == sid) then processedIds ps
        else processedIds ps ++ [sid] := by
  by_cases h : ps.any (fun p => p.session_id == sid)
  · rw [mark_processed, if_pos h, if_pos h]
    simp only [processedIds, List.map_map]
    refine List.map_congr_left ?_
    intro p _
    by_cases hps : p.session_id == sid
    · have heq : p.session_id = sid := by simpa using hps
      simp [hps, heq]
    · have hne2 : ¬ p.session_id = sid := by simpa using hps
      simp [hne2]
  · rw [mark_processed, if_neg h, if_neg h]
    simp [processedIds]

lemma mem_processedIds_mark (sid x : String) (now : ℚ) (events : ℕ) (ps : List ProcRow)
    (hx : x ∈ processedIds ps) : x ∈ processedIds (mark_processed sid now events ps) := by
  rw [processedIds_mark]
  by_cases h : ps.any (fun p => p.session_id == sid)
  · rw [if_pos h]; exact hx
  · rw [if_neg h]; exact List.mem_append_left _ hx

lemma self_mem_processedIds_mark (sid : String) (now : ℚ) (events : ℕ)
    (ps : List ProcRow) : sid ∈ processedIds (mark_processed sid now events ps) := by
  rw [processedIds_mark]
  by_cases h : ps.any (fun p => p.session_id == sid)
  · rw [if_pos h]
    obtain ⟨p, hp, hps⟩ := List.any_eq_true.mp h
    exact List.mem_map.mpr ⟨p, hp, by simpa using hps⟩
  · rw [if_neg h]
    exact List.mem_append_right _ (List.mem_singleton_self _)

lemma extractorLoop_ids_mono (fixed : List String) (now : ℚ)
    (sessions : List (String × Option (List SObj))) (st : SessState) (x : String)
    (hx : x ∈ processedIds st.processed) :
    x ∈ processedIds (extractorLoop fixed now sessions st).processed := by
  induction sessions generalizing st with
  | nil => exact hx
  | cons s rest ih =>
      rw [extractorLoop, List.foldl_cons]
      by_cases h : s.1 ∈ fixed
      · rw [if_pos h]
        exact ih st hx
      · rw [if_neg h]
        exact ih _ (mem_processedIds_mark _ _ _ _ _ hx)

lemma extractorLoop_covers (fixed : List String) (now : ℚ)
    (sessions : List (String × Option (List SObj))) (st : SessState)
    (hsub : ∀ x ∈ fixed, x ∈ processedIds st.processed) :
    ∀ s ∈ sessions, s.1 ∈ processedIds (extractorLoop fixed now sessions st).processed := by
  induction sessions generalizing st with
  | nil => intro s hs; cases hs
  | cons s₀ rest ih =>
      intro s hs
      rw [extractorLoop, List.foldl_cons]
      by_cases h : s₀.1 ∈ fixed
      · rw [if_pos h]
        rcases List.mem_cons.mp hs with rfl | hrest
        · exact extractorLoop_ids_mono fixed now rest st s.1 (hsub s.1 h)
        · exact ih st hsub s hrest
      · rw [if_neg h]
        rcases List.mem_cons.mp hs with rfl | hrest
        · exact extractorLoop_ids_mono fixed now rest _ s.1
            (self_mem_processedIds_mark _ _ _ _)
        · exact ih _ (fun x hx => mem_processedIds_mark _ _ _ _ _ (hsub x hx)) s hrest

lemma extractorLoop_all_skipped (fixed : List String) (now : ℚ)
    (sessions : List (String × Option (List SObj))) (st : SessState)
    (hall : ∀ s ∈ sessions, s.1 ∈ fixed) :
    extractorLoop fixed now sessions st = st := by
  induction sessions generalizing st with
  | nil => rfl
  | cons s₀ rest ih =>
      rw [extractorLoop, List.foldl_cons, if_pos (hall s₀ (List.mem_cons_self _ _))]
      exact ih st (fun s hs => hall s (List.mem_cons_of_mem _ hs))

/-- C9: every scanned session gets a `processed_sessions` row, even when it
yields zero events — in particular an unreadable or malformed transcript, for
which `extract_session` returns 0 — so without the reprocess flag a second run
over the same sessions changes nothing (the session stays skipped). -/
theorem c9_watermark (sessions : List (String × Option (List SObj))) (reprocess : Bool)
    (now now2 : ℚ) (st : SessState) :
    (∀ s ∈ sessions, s.1 ∈ processedIds
        (extractor_main sessions reprocess now st).processed)
    ∧ extractor_main sessions false now2 (extractor_main sessions reprocess now st)
        = extractor_main sessions reprocess now st
    ∧ (∀ (sid : String) (t : ℚ), extract_session none sid t = ([], 0)) := by
  have hcov : ∀ s ∈ sessions, s.1 ∈ processedIds
      (extractor_main sessions reprocess now st).processed := by
    intro s hs
    rw [extractor_main]
    apply extractorLoop_covers _ _ _ _ _ s hs
    intro x hx
    cases reprocess with
    | false => simpa using hx
    | true => simp at hx
  refine ⟨hcov, ?_, fun sid t => rfl⟩
  rw [extractor_main]
  exact extractorLoop_all_skipped _ _ _ _ (by simpa using hcov)

/-- C9 witness: a single malformed session (`none` transcript) is marked
processed with zero events on the first run, and a second run without the
reprocess flag is the identity. -/
theorem c9_witness :
    ("s1", (none : Option (List SObj)))
        ∈ [(("s1" : String), (none : Option (List SObj)))]
    ∧ "s1" ∈ processedIds
        (extractor_main [("s1", none)] false 5 {}).processed
    ∧ extractor_main [("s1", none)] false 6 (extractor_main [("s1", none)] false 5 {})
        = extractor_main [("s1", none)] false 5 {}
    ∧ extract_session none "s1" 5 = ([], 0) := by
  have h := c9_watermark [("s1", none)] false 5 6 {}
  exact ⟨List.mem_singleton_self _,
         h.1 ("s1", none) (List.mem_singleton_self _), h.2.1, h.2.2 "s1" 5⟩

/-! ## Energy map (`pipeline.py`, `load_access_energy`) -/

/-- One row of `chunk_energy` as read by `load_access_energy` (floats as `ℝ`).
`log_event` always sets `last_accessed`, so it is modelled non-optional; the
Python falsy quirk `last_accessed or now` is kept for the value 0. -/
structure ChunkEnergyRow where
  chunk_key : String
  total_accesses : ℕ
  total_score : ℝ
  last_accessed : ℝ

/-- Source line `decay_rate = np.log(2) / (half_life_hours * 3600)`. -/
noncomputable def decayRate (halfLifeHours : ℝ) : ℝ :=
  Real.log 2 / (halfLifeHours * 3600)

/-- The un-normalized energy `load_access_energy` computes for one row:
`age = now - (last_accessed or now)`, `decay = exp(-decay_rate * age)`,
`e = (total_score / max(total_accesses, 1)) * total_accesses * decay`. -/
noncomputable def rawEnergy (halfLifeHours now : ℝ) (r : ChunkEnergyRow) : ℝ :=
  (r.total_score / (max r.total_accesses 1 : ℕ)) * (r.total_accesses : ℝ) *
    Real.exp (-(decayRate halfLifeHours) *
      (now - (if r.last_accessed = 0 then now else r.last_accessed)))

/-- Maximum of `v :: vs`, computed as Python's `max` over a nonempty list. -/
def foldMax (v : ℝ) (vs : List ℝ) : ℝ := vs.foldl max v

/-- The raw-energy association list before normalization (`SELECT … WHERE
total_accesses > 0` followed by the energy computation). -/
noncomputable def energyList (rows : List ChunkEnergyRow) (now halfLifeHours : ℝ) :
    List (String × ℝ) :=
  (rows.filter (fun r => decide (0 < r.total_accesses))).map
    (fun r => (r.chunk_key, rawEnergy halfLifeHours now r))

/-- Source line `max(energy.values())`, 0 when the map is empty. -/
noncomputable def energyMax (rows : List ChunkEnergyRow) (now halfLifeHours : ℝ) : ℝ :=
  match energyList rows now halfLifeHours with
  | [] => 0
  | e0 :: erest => foldMax e0.2 (erest.map Prod.snd)

/-- The normalization step: divide every value by the maximum when the map is
nonempty and the maximum is positive. -/
noncomputable def normalizeEnergy : List (String × ℝ) → List (String × ℝ)
  | [] => []
  | e0 :: erest =>
      if 0 < foldMax e0.2 (erest.map Prod.snd) then
        (e0 :: erest).map (fun p => (p.1, p.2 / foldMax e0.2 (erest.map Prod.snd)))
      else e0 :: erest

/-- Source line `load_access_energy(half_life_hours)` over the `chunk_energy` rows at wall
clock `now`. -/
noncomputable def load_access_energy (rows : List ChunkEnergyRow)
    (now halfLifeHours : ℝ) : List (String × ℝ) :=
  normalizeEnergy (energyList rows now halfLifeHours)

/-- Lookup in the energy map (`energy_map.get(chunk_key)`). -/
noncomputable def lookupEnergyMap : List (String × ℝ) → String → Option ℝ
  | [], _ => none
  | (k', v) :: rest, k => if k' = k then some v else lookupEnergyMap rest k

/-- The raw energy exactly as the specification words it:
`(total_score / max(total_accesses,1)) · total_accesses ·
exp(−ln 2 · age / (half_life · 3600))` with `age = now − last_accessed`. -/
noncomputable def specRawEnergy (halfLifeHours now : ℝ) (r : ChunkEnergyRow) : ℝ :=
  (r.total_score / (max r.total_accesses 1 : ℕ)) * (r.total_accesses : ℝ) *
    Real.exp (-(Real.log 2) * (now - r.last_accessed) / (halfLifeHours * 3600))

/-- The maximum raw energy over the rows, in the specification's phrasing. -/
noncomputable def maxRawEnergy (rows : List ChunkEnergyRow) (now halfLifeHours : ℝ) : ℝ :=
  match rows.map (specRawEnergy halfLifeHours now) with
  | [] => 0
  | v :: vs => foldMax v vs

lemma rawEnergy_eq_spec (halfLifeHours now : ℝ) (r : ChunkEnergyRow)
    (hlast : r.last_accessed ≠ 0) :
    rawEnergy halfLifeHours now r = specRawEnergy halfLifeHours now r := by
  rw [rawEnergy, specRawEnergy, if_neg hlast, decayRate]
  ring_nf

lemma le_foldMax_left (v : ℝ) (vs : List ℝ) : v ≤ foldMax v vs := by
  induction vs generalizing v with
  | nil => exact le_refl v
  | cons w ws ih => exact le_trans (le_max_left v w) (ih (max v w))

lemma le_foldMax_mem {x : ℝ} {vs : List ℝ} (v : ℝ) (hx : x ∈ vs) :
    x ≤ foldMax v vs := by
  induction vs generalizing v with
  | nil => cases hx
  | cons w ws ih =>
      rcases List.mem_cons.mp hx with rfl | hws
      · exact le_trans (le_max_right v x) (le_foldMax_left _ _)
      · exact ih (max v w) hws

lemma foldMax_mem (v : ℝ) (vs : List ℝ) : foldMax v vs ∈ v :: vs := by
  induction vs generalizing v with
  | nil => exact List.mem_singleton_self v
  | cons w ws ih =>
      have h := ih (max v w)
      rcases List.mem_cons.mp h with hm | hm
      · rcases max_choice v w with hv | hw
        · rw [foldMax] at hm ⊢
          rw [List.foldl_cons, hm, hv]
          exact List.mem_cons_self _ _
        · rw [foldMax] at hm ⊢
          rw [List.foldl_cons, hm, hw]
          exact List.mem_cons_of_mem _ (List.mem_cons_self _ _)
      · rw [foldMax, List.foldl_cons]
        exact List.mem_cons_of_mem _ (List.mem_cons_of_mem _ hm)

lemma lookupEnergyMap_map_self (l : List ChunkEnergyRow) (f : ChunkEnergyRow → ℝ)
    (hnd : (l.map (fun r => r.chunk_key)).Nodup) {r : ChunkEnergyRow} (hr : r ∈ l) :
    lookupEnergyMap (l.map (fun r' => (r'.chunk_key, f r'))) r.chunk_key = some (f r) := by
  induction l with
  | nil => cases hr
  | cons r0 rest ih =>
      rw [List.map_cons, lookupEnergyMap]
      by_cases hk : r0.chunk_key = r.chunk_key
      · rw [if_pos hk]
        rcases List.mem_cons.mp hr with rfl | hrest
        · rfl
        · exfalso
          have hmem : r.chunk_key ∈ rest.map (fun r => r.chunk_key) :=
            List.mem_map.mpr ⟨r, hrest, rfl⟩
          rw [← hk] at hmem
          exact (List.nodup_cons.mp (by simpa using hnd)).1 hmem
      · rw [if_neg hk]
        rcases List.mem_cons.mp hr with rfl | hrest
        · exact absurd rfl hk
        · exact ih (List.nodup_cons.mp (by simpa using hnd)).2 hrest

lemma lookupEnergyMap_map_none (l : List ChunkEnergyRow) (f : ChunkEnergyRow → ℝ)
    {k : String} (hk : ∀ r ∈ l, r.chunk_key ≠ k) :
    lookupEnergyMap (l.map (fun r' => (r'.chunk_key, f r'))) k = none := by
  induction l with
  | nil => rfl
  | cons r0 rest ih =>
      rw [List.map_cons, lookupEnergyMap,
        if_neg (hk r0 (List.mem_cons_self _ _))]
      exact ih (fun r hr => hk r (List.mem_cons_of_mem _ hr))

lemma load_access_energy_eq (rows : List ChunkEnergyRow) (now halfLifeHours : ℝ) :
    load_access_energy rows now halfLifeHours
      = if 0 < energyMax rows now halfLifeHours
        then (energyList rows now halfLifeHours).map
              (fun p => (p.1, p.2 / energyMax rows now halfLifeHours))
        else energyList rows now halfLifeHours := by
  rw [load_access_energy]
  cases hel : energyList rows now halfLifeHours with
  | nil => simp [normalizeEnergy, energyMax, hel]
  | cons e0 erest =>
      rw [normalizeEnergy, energyMax, hel]

lemma mem_energyList_le_max {rows : List ChunkEnergyRow} {now halfLifeHours : ℝ}
    {p : String × ℝ} (hp : p ∈ energyList rows now halfLifeHours) :
    p.2 ≤ energyMax rows now halfLifeHours := by
  rw [energyMax]
  cases hel : energyList rows now halfLifeHours with
  | nil => rw [hel] at hp; cases hp
  | cons e0 erest =>
      rw [hel] at hp
      rcases List.mem_cons.mp hp with rfl | hrest
      · exact le_foldMax_left _ _
      · exact le_foldMax_mem _ (List.mem_map.mpr ⟨p, hrest, rfl⟩)

lemma energyMax_mem {rows : List ChunkEnergyRow} {now halfLifeHours : ℝ}
    (hne : energyList rows now halfLifeHours ≠ []) :
    ∃ p ∈ energyList rows now halfLifeHours,
      p.2 = energyMax rows now halfLifeHours := by
  rw [energyMax]
  cases hel : energyList rows now halfLifeHours with
  | nil => exact absurd hel hne
  | cons e0 erest =>
      have h := foldMax_mem e0.2 (erest.map Prod.snd)
      rcases List.mem_cons.mp h with hm | hm
      · exact ⟨e0, List.mem_cons_self _ _, hm.symm⟩
      · obtain ⟨p, hp, hps⟩ := List.mem_map.mp hm
        exact ⟨p, List.mem_cons_of_mem _ hp, by rw [hps]⟩

lemma lookup_load_access_energy (rows : List ChunkEnergyRow) (now halfLifeHours : ℝ)
    (hnd : (rows.map (fun r => r.chunk_key)).Nodup) {r : ChunkEnergyRow}
    (hr : r ∈ rows) (hacc : 0 < r.total_accesses) :
    lookupEnergyMap (load_access_energy rows now halfLifeHours) r.chunk_key
      = some (if 0 < energyMax rows now halfLifeHours
              then rawEnergy halfLifeHours now r / energyMax rows now halfLifeHours
              else rawEnergy halfLifeHours now r) := by
  have hrf : r ∈ rows.filter (fun r => decide (0 < r.total_accesses)) :=
    List.mem_filter.mpr ⟨hr, by simpa using hacc⟩
  have hndf : ((rows.filter (fun r => decide (0 < r.total_accesses))).map
      (fun r => r.chunk_key)).Nodup :=
    List.Nodup.sublist (List.Sublist.map _ (List.filter_sublist rows)) hnd
  rw [load_access_energy_eq]
  by_cases hmax : 0 < energyMax rows now halfLifeHours
  · rw [if_pos hmax, if_pos hmax, energyList, List.map_map]
    exact lookupEnergyMap_map_self _
      (fun r' => rawEnergy halfLifeHours now r' / energyMax rows now halfLifeHours)
      hndf hrf
  · rw [if_neg hmax, if_neg hmax, energyList]
    exact lookupEnergyMap_map_self _ (rawEnergy halfLifeHours now) hndf hrf

lemma energyList_eq_spec (rows : List ChunkEnergyRow) (now halfLife : ℝ)
    (hacc : ∀ r ∈ rows, 0 < r.total_accesses)
    (hlast : ∀ r ∈ rows, r.last_accessed ≠ 0) :
    energyList rows now halfLife
      = rows.map (fun r => (r.chunk_key, specRawEnergy halfLife now r)) := by
  rw [energyList, List.filter_eq_self.mpr (fun r hr => by simpa using hacc r hr)]
  refine List.map_congr_left ?_
  intro r hr
  rw [rawEnergy_eq_spec _ _ _ (hlast r hr)]

lemma energyMax_eq_spec (rows : List ChunkEnergyRow) (now halfLife : ℝ)
    (hacc : ∀ r ∈ rows, 0 < r.total_accesses)
    (hlast : ∀ r ∈ rows, r.last_accessed ≠ 0) :
    energyMax rows now halfLife = maxRawEnergy rows now halfLife := by
  rw [energyMax, energyList_eq_spec rows now halfLife hacc hlast, maxRawEnergy]
  cases rows with
  | nil => rfl
  | cons r0 rrest =>
      simp only [List.map_cons, List.map_map]
      exact congrArg (foldMax _) (List.map_congr_left (fun r _ => rfl))

/-- C3: for every nonempty set of `chunk_energy` rows with positive
`total_accesses` (and the timestamps the access store actually writes), the
energy map assigns each key the raw energy
`(total_score / max(total_accesses,1)) · total_accesses · exp(−ln 2 · age /
(half_life · 3600))` with `age = now − last_accessed`, normalized by the
maximum raw energy whenever that maximum is positive; the maximum map value is
then exactly 1, and keys absent from the rows are absent from the map. -/
theorem c3_energy_map (rows : List ChunkEnergyRow) (now halfLife : ℝ)
    (hacc : ∀ r ∈ rows, 0 < r.total_accesses)
    (hlast : ∀ r ∈ rows, r.last_accessed ≠ 0)
    (hnd : (rows.map (fun r => r.chunk_key)).Nodup) :
    (∀ r ∈ rows,
        lookupEnergyMap (load_access_energy rows now halfLife) r.chunk_key
          = some (if 0 < maxRawEnergy rows now halfLife
                  then specRawEnergy halfLife now r / maxRawEnergy rows now halfLife
                  else specRawEnergy halfLife now r))
    ∧ ((∃ r ∈ rows, 0 < specRawEnergy halfLife now r) →
        (∃ k, lookupEnergyMap (load_access_energy rows now halfLife) k = some 1)
        ∧ ∀ p ∈ load_access_energy rows now halfLife, p.2 ≤ 1)
    ∧ (∀ k, (∀ r ∈ rows, r.chunk_key ≠ k) →
        lookupEnergyMap (load_access_energy rows now halfLife) k = none) := by
  have hmaxeq := energyMax_eq_spec rows now halfLife hacc hlast
  have hlisteq := energyList_eq_spec rows now halfLife hacc hlast
  have hpart1 : ∀ r ∈ rows,
      lookupEnergyMap (load_access_energy rows now halfLife) r.chunk_key
        = some (if 0 < maxRawEnergy rows now halfLife
                then specRawEnergy halfLife now r / maxRawEnergy rows now halfLife
                else specRawEnergy halfLife now r) := by
    intro r hr
    rw [lookup_load_access_energy rows now halfLife hnd hr (hacc r hr),
        rawEnergy_eq_spec _ _ _ (hlast r hr), hmaxeq]
  refine ⟨hpart1, ?_, ?_⟩
  · rintro ⟨r₀, hr₀, hpos⟩
    have hp0 : (r₀.chunk_key, specRawEnergy halfLife now r₀)
        ∈ energyList rows now halfLife := by
      rw [hlisteq]
      exact List.mem_map.mpr ⟨r₀, hr₀, rfl⟩
    have hmaxpos : 0 < maxRawEnergy rows now halfLife := by
      rw [← hmaxeq]
      exact lt_of_lt_of_le hpos (mem_energyList_le_max hp0)
    have hmaxne : maxRawEnergy rows now halfLife ≠ 0 := ne_of_gt hmaxpos
    constructor
    · obtain ⟨p, hp, hpm⟩ := energyMax_mem
        (by rw [hlisteq]; intro hcon
            rw [List.map_eq_nil_iff.mp hcon] at hr₀; cases hr₀)
      obtain ⟨r₁, hr₁, rfl⟩ := by rw [hlisteq] at hp; exact List.mem_map.mp hp
      refine ⟨r₁.chunk_key, ?_⟩
      rw [hpart1 r₁ hr₁, if_pos hmaxpos]
      have hval : specRawEnergy halfLife now r₁ = maxRawEnergy rows now halfLife := by
        rw [← hmaxeq]; exact hpm
      rw [hval, div_self hmaxne]
    · intro p hp
      have hemax : 0 < energyMax rows now halfLife := by
        rw [hmaxeq]; exact hmaxpos
      rw [load_access_energy_eq, if_pos hemax] at hp
      obtain ⟨q, hq, rfl⟩ := List.mem_map.mp hp
      have hle := mem_energyList_le_max hq
      simpa using (div_le_one hemax).mpr hle
  · intro k hk
    rw [load_access_energy_eq]
    have hkf : ∀ r ∈ rows.filter (fun r => decide (0 < r.total_accesses)),
        r.chunk_key ≠ k := fun r hr => hk r (List.mem_of_mem_filter hr)
    by_cases hmax : 0 < energyMax rows now halfLife
    · rw [if_pos hmax, energyList, List.map_map]
      exact lookupEnergyMap_map_none _ _ hkf
    · rw [if_neg hmax, energyList]
      exact lookupEnergyMap_map_none _ _ hkf

/-- C3 witness: the energy-map characterization evaluated on a single row
`("A", accesses 1, score 1, last_accessed = now = 1)` with half-life 1. -/
theorem c3_witness :
    (∀ r ∈ [(⟨"A", 1, 1, 1⟩ : ChunkEnergyRow)], 0 < r.total_accesses)
    ∧ (∀ r ∈ [(⟨"A", 1, 1, 1⟩ : ChunkEnergyRow)], r.last_accessed ≠ 0)
    ∧ lookupEnergyMap (load_access_energy [(⟨"A", 1, 1, 1⟩ : ChunkEnergyRow)] 1 1) "A"
        = some (if 0 < maxRawEnergy [(⟨"A", 1, 1, 1⟩ : ChunkEnergyRow)] 1 1
                then specRawEnergy 1 1 (⟨"A", 1, 1, 1⟩ : ChunkEnergyRow)
                      / maxRawEnergy [(⟨"A", 1, 1, 1⟩ : ChunkEnergyRow)] 1 1
                else specRawEnergy 1 1 (⟨"A", 1, 1, 1⟩ : ChunkEnergyRow)) := by
  refine ⟨by simp, by simp, ?_⟩
  exact (c3_energy_map [(⟨"A", 1, 1, 1⟩ : ChunkEnergyRow)] 1 1
    (by simp) (by simp) (by simp)).1 ⟨"A", 1, 1, 1⟩ (List.mem_singleton_self _)

lemma lookupEnergyMap_cons (k' : String) (v : ℝ) (rest : List (String × ℝ)) (k : String) :
    lookupEnergyMap ((k', v) :: rest) k
      = if k' = k then some v else lookupEnergyMap rest k := rfl

/-- C8, counterexample to the claim as stated: two rows with identical
`total_accesses = 1` and identical `total_score = 0` but different
`last_accessed` (100 < 200 ≤ now) receive *equal* energy (both 0), not a
strictly higher energy for the newer row; likewise two rows with identical
`total_accesses = 0` are both dropped from the map. -/
theorem c8_counterexample :
    (lookupEnergyMap (load_access_energy
        [⟨"A", 1, 0, 100⟩, ⟨"B", 1, 0, 200⟩] 200 168) "B").getD 0
      = (lookupEnergyMap (load_access_energy
        [⟨"A", 1, 0, 100⟩, ⟨"B", 1, 0, 200⟩] 200 168) "A").getD 0
    ∧ ((100 : ℝ) < 200) ∧ ((200 : ℝ) ≤ 200)
    ∧ load_access_energy [⟨"C", 0, 5, 100⟩, ⟨"D", 0, 5, 200⟩] 200 168 = [] := by
  have hraw : ∀ (k : String) (la : ℝ), rawEnergy 168 200 ⟨k, 1, 0, la⟩ = 0 := by
    intro k la
    simp [rawEnergy]
  have hload : load_access_energy [⟨"A", 1, 0, 100⟩, ⟨"B", 1, 0, 200⟩] 200 168
      = [("A", 0), ("B", 0)] := by
    simp [load_access_energy, energyList, normalizeEnergy, foldMax, hraw, List.filter]
  refine ⟨?_, by norm_num, le_refl _, ?_⟩
  · rw [hload, lookupEnergyMap_cons, lookupEnergyMap_cons,
        if_neg (by decide : ¬ ("A" : String) = "B"), lookupEnergyMap_cons,
        if_pos rfl, if_pos rfl]
  · simp [load_access_energy, energyList, normalizeEnergy, List.filter]

/-- C8 (amended): for two `chunk_energy` rows of the same table with identical
`total_accesses > 0` and identical `total_score > 0` (the positivity being
what the counterexample shows the claim additionally needs) and different
positive `last_accessed ≤ now`, the energy map assigns strictly higher energy
to the row with the newer `last_accessed`. -/
theorem c8_decay_monotonic (rows : List ChunkEnergyRow) (now halfLife : ℝ)
    (r1 r2 : ChunkEnergyRow) (hhl : 0 < halfLife)
    (hnd : (rows.map (fun r => r.chunk_key)).Nodup)
    (h1 : r1 ∈ rows) (h2 : r2 ∈ rows)
    (hacc : r1.total_accesses = r2.total_accesses) (haccpos : 0 < r2.total_accesses)
    (hsc : r1.total_score = r2.total_score) (hscpos : 0 < r2.total_score)
    (hl1pos : 0 < r1.last_accessed) (hlt : r1.last_accessed < r2.last_accessed)
    (hle : r2.last_accessed ≤ now) :
    (lookupEnergyMap (load_access_energy rows now halfLife) r1.chunk_key).getD 0
      < (lookupEnergyMap (load_access_energy rows now halfLife) r2.chunk_key).getD 0 := by
  have haccpos1 : 0 < r1.total_accesses := hacc ▸ haccpos
  have hl2pos : 0 < r2.last_accessed := lt_trans hl1pos hlt
  have hexpand : ∀ (r : ChunkEnergyRow), 0 < r.total_accesses → r.last_accessed ≠ 0 →
      rawEnergy halfLife now r
        = r.total_score * Real.exp (-(decayRate halfLife) * (now - r.last_accessed)) := by
    intro r hra hrl
    rw [rawEnergy, if_neg hrl, max_eq_left hra,
        div_mul_cancel₀ _ (Nat.cast_ne_zero.mpr (Nat.pos_iff_ne_zero.mp hra))]
  have hraw1 := hexpand r1 haccpos1 (ne_of_gt hl1pos)
  have hraw2 := hexpand r2 haccpos (ne_of_gt hl2pos)
  have hrate : 0 < decayRate halfLife :=
    div_pos (Real.log_pos one_lt_two) (mul_pos hhl (by norm_num))
  have hexp : Real.exp (-(decayRate halfLife) * (now - r1.last_accessed))
      < Real.exp (-(decayRate halfLife) * (now - r2.last_accessed)) := by
    apply Real.exp_lt_exp.mpr
    exact mul_lt_mul_of_neg_left (sub_lt_sub_left hlt now) (neg_lt_zero.mpr hrate)
  have hrawlt : rawEnergy halfLife now r1 < rawEnergy halfLife now r2 := by
    rw [hraw1, hraw2, hsc]
    exact mul_lt_mul_of_pos_left hexp hscpos
  have hraw2pos : 0 < rawEnergy halfLife now r2 := by
    rw [hraw2]
    exact mul_pos hscpos (Real.exp_pos _)
  have hp2 : (r2.chunk_key, rawEnergy halfLife now r2) ∈ energyList rows now halfLife :=
    List.mem_map.mpr ⟨r2, List.mem_filter.mpr ⟨h2, by simpa using haccpos⟩, rfl⟩
  have hemax : 0 < energyMax rows now halfLife :=
    lt_of_lt_of_le hraw2pos (mem_energyList_le_max hp2)
  rw [lookup_load_access_energy rows now halfLife hnd h1 haccpos1,
      lookup_load_access_energy rows now halfLife hnd h2 haccpos,
      if_pos hemax, if_pos hemax]
  simp only [Option.getD_some]
  exact div_lt_div_of_pos_right hrawlt hemax

/-- C8 witness: the amended decay monotonicity on two concrete rows with
`total_accesses = 1`, `total_score = 1`, and `last_accessed` 1 versus 2 at
`now = 2`, half-life 1. -/
theorem c8_witness :
    ((0 : ℝ) < 1) ∧ ((1 : ℝ) < 2) ∧ ((2 : ℝ) ≤ 2)
    ∧ (lookupEnergyMap (load_access_energy
          [⟨"A", 1, 1, 1⟩, ⟨"B", 1, 1, 2⟩] 2 1) "A").getD 0
      < (lookupEnergyMap (load_access_energy
          [⟨"A", 1, 1, 1⟩, ⟨"B", 1, 1, 2⟩] 2 1) "B").getD 0 := by
  refine ⟨zero_lt_one, one_lt_two, le_refl _, ?_⟩
  exact c8_decay_monotonic [⟨"A", 1, 1, 1⟩, ⟨"B", 1, 1, 2⟩] 2 1
    ⟨"A", 1, 1, 1⟩ ⟨"B", 1, 1, 2⟩ zero_lt_one (by decide)
    (List.mem_cons_self _ _) (List.mem_cons_of_mem _ (List.mem_singleton_self _))
    rfl (by decide) rfl zero_lt_one zero_lt_one one_lt_two (le_refl _)

/-! ## Reconsolidation pipeline (`pipeline.py`) -/

/-- One row of the Vector Store's `chunks` table, as `load_vmem_chunks` reads
it; the list is held in the `ORDER BY id` order the SELECT returns. -/
structure VmemChunk where
  id : ℕ
  file_path : String
  content : String
  line_start : ℤ
  line_end : ℤ
deriving DecidableEq

/-- The Vector Store: the `chunks` table and the `chunk_embeddings` virtual
table. `float32` vectors are carried as `List ℝ`; the
`serialize_f32`/`deserialize_f32` byte round trip is the identity on them. -/
structure VmemStore where
  chunks : List VmemChunk := []
  embeddings : List (ℕ × List ℝ) := []

/-- Source line `f"{file_path}:{line_start}"`. -/
def chunkKeyOf (c : VmemChunk) : String := c.file_path ++ ":" ++ toString c.line_start

/-- Embedding lookup in the `chunk_embeddings` table by `chunk_id`. -/
def lookupEmb : List (ℕ × List ℝ) → ℕ → Option (List ℝ)
  | [], _ => none
  | (i, v) :: rest, j => if i = j then some v else lookupEmb rest j

/-- Source line `load_vmem_chunks()`: pair each chunk with its embedding, skipping chunks
whose embedding row is absent; returns the chunk list and the matrix `E` as a
list of rows. -/
def load_vmem_chunks (vm : VmemStore) : List VmemChunk × List (List ℝ) :=
  let paired := vm.chunks.filterMap (fun c =>
    match lookupEmb vm.embeddings c.id with
    | none => none
    | some emb => some (c, emb))
  (paired.map Prod.fst, paired.map Prod.snd)

/-- Entry `(i, j)` of a list-of-rows matrix (0 outside the carrier, which the
pipeline never reads). -/
def matAt (E : List (List ℝ)) (i j : ℕ) : ℝ := (E.getD i []).getD j 0

/-- Orthonormal DCT scale factor `sqrt(1/N)` for `k = 0`, `sqrt(2/N)` else. -/
noncomputable def dctScale (N k : ℕ) : ℝ :=
  if k = 0 then Real.sqrt (1 / N) else Real.sqrt (2 / N)

/-- Orthonormal DCT-II along the chunk axis (`scipy.fft.dct(·, axis=0,
norm='ortho')` on one column). -/
noncomputable def dctII (N : ℕ) (x : ℕ → ℝ) (k : ℕ) : ℝ :=
  dctScale N k *
    ∑ n ∈ Finset.range N, x n * Real.cos (Real.pi * (2 * n + 1) * k / (2 * N))

/-- Orthonormal inverse DCT (DCT-III) on one column. -/
noncomputable def idctIII (N : ℕ) (c : ℕ → ℝ) (n : ℕ) : ℝ :=
  ∑ k ∈ Finset.range N, dctScale N k * c k *
    Real.cos (Real.pi * (2 * n + 1) * k / (2 * N))

/-- Forward DCT, zero coefficients with index `≥ kKeep`, inverse DCT. -/
noncomputable def dctRoundTrip (N kKeep : ℕ) (x : ℕ → ℝ) (n : ℕ) : ℝ :=
  idctIII N (fun k => if k < kKeep then dctII N x k else 0) n

/-- Stable insertion of `x` into a sorted list (ties keep the earlier element
first), used to model Python's stable sorts and `np.argsort`. -/
def sInsert {α : Type} (le : α → α → Bool) (x : α) : List α → List α
  | [] => [x]
  | y :: ys => if le x y then x :: y :: ys else y :: sInsert le x ys

/-- Stable sort by the boolean relation `le`. -/
def sSort {α : Type} (le : α → α → Bool) (l : List α) : List α :=
  l.foldr (sInsert le) []

/-- Minimum of `v :: vs`. -/
def foldMin (v : ℝ) (vs : List ℝ) : ℝ := vs.foldl min v

/-- The structured no-op dictionaries `reconsolidate` can return (`action` is
`"none"` in each; only the fields the source puts in the dict are `some`). -/
structure NoOpResult where
  error : Option String := none
  n_chunks : Option ℕ := none
  access_events : Option ℕ := none
  hint : Option String := none
deriving DecidableEq

/-- One entry of the `promoted`/`demoted` payload (chunk key, 80-character
content preview, energy, delta). -/
structure MoverEntry where
  chunk_key : String
  content : String
  energy : ℝ
  delta : ℝ

/-- The full-run result dictionary of `reconsolidate`. `keepFrac` and
`strength` carry the source's `keep_ratio` and `promotion_strength`. -/
structure DoneResult where
  action : String
  n_chunks : ℕ
  n_with_energy : ℕ
  k_coefficients : ℕ
  keepFrac : ℝ
  strength : ℝ
  avg_sim_before : ℝ
  avg_sim_after : ℝ
  avg_delta : ℝ
  promoted : List MoverEntry
  demoted : List MoverEntry

/-- The result of one `reconsolidate` call. -/
inductive RunResult where
  | noop (r : NoOpResult)
  | done (d : DoneResult)

/-- One row of `reconsolidation_runs` in the metrics store (`keepFrac` and
`strength` carry the source's `keep_ratio` and `promotion_strength`). -/
structure MetricsRow where
  timestamp : ℝ
  n_chunks : ℕ
  n_with_energy : ℕ
  k_coefficients : ℕ
  keepFrac : ℝ
  strength : ℝ
  avg_sim_before : ℝ
  avg_sim_after : ℝ
  avg_delta : ℝ
  max_promoted_delta : ℝ
  max_demoted_delta : ℝ
  total_access_events : ℕ
  details : List MoverEntry

/-- Source line `_write_embeddings(chunks, embeddings)`: for each chunk in order, `DELETE`
its `chunk_embeddings` row and `INSERT` the new one. The store state at
write-back time is the explicit `store` argument. -/
def write_embeddings (chunks : List VmemChunk) (embs : List (List ℝ))
    (store : List (ℕ × List ℝ)) : List (ℕ × List ℝ) :=
  (chunks.zip embs).foldl (fun st ce =>
    st.filter (fun row => row.1 != ce.1.id) ++ [(ce.1.id, ce.2)]) store

/-- Source line `reconsolidate(keep_ratio, promotion_strength, dry_run)` over the Vector
Store `vm`, the `chunk_energy` rows, and the metrics store; returns the result
dictionary with the post-run Vector Store and metrics store. `int(N * keep_ratio)`
is `Nat.floor` (faithful for the spec's `keep_ratio ∈ (0,1]`); `1e-10` is
`1 / 10 ^ 10`. -/
noncomputable def reconsolidate (vm : VmemStore) (energyRows : List ChunkEnergyRow)
    (now : ℝ) (keepFrac strength : ℝ) (dryRun : Bool) (metrics : List MetricsRow) :
    RunResult × VmemStore × List MetricsRow :=
  let chunks := (load_vmem_chunks vm).1
  let E := (load_vmem_chunks vm).2
  if chunks.isEmpty then
    (.noop ⟨some "no chunks in vmem", none, none, none⟩, vm, metrics)
  else
    let N := chunks.length
    let energy_map := load_access_energy energyRows now 168
    if energy_map.isEmpty then
      (.noop ⟨some "no access events yet", some N, none,
        some "Run some sessions first — access events are logged at compaction"⟩,
       vm, metrics)
    else
      let energyVec := chunks.map (fun c =>
        (lookupEnergyMap energy_map (chunkKeyOf c)).getD 0)
      let nWith := (energyVec.filter (fun e => decide (0 < e))).length
      if nWith = 0 then
        (.noop ⟨none, some N, some energy_map.length,
          some "Access events exist but none match current vmem chunks (chunk keys may have shifted after reindex)"⟩,
         vm, metrics)
      else
        let D := (E.getD 0 []).length
        let k := max 1 (Nat.floor ((N : ℝ) * keepFrac))
        let Rstd := fun i j => dctRoundTrip N k (fun n => matAt E n j) i
        let w := fun i => 1 + strength * energyVec.getD i 0
        let Rprom := fun i j =>
          dctRoundTrip N k (fun n => matAt E n j * w n) i / w i
        let dot := fun (f g : ℕ → ℝ) => ∑ j ∈ Finset.range D, f j * g j
        let nrm := fun (f : ℕ → ℝ) => Real.sqrt (∑ j ∈ Finset.range D, f j ^ 2)
        let simsBefore := fun i =>
          dot (matAt E i) (Rstd i) / (nrm (matAt E i) * nrm (Rstd i) + 1 / 10 ^ 10)
        let simsAfter := fun i =>
          dot (matAt E i) (Rprom i) / (nrm (matAt E i) * nrm (Rprom i) + 1 / 10 ^ 10)
        let delta := fun i => simsAfter i - simsBefore i
        let idxAsc := sSort (fun a b => decide (delta a ≤ delta b)) (List.range N)
        let promotedIdx := (idxAsc.drop (N - 10)).reverse
        let demotedIdx := idxAsc.take 5
        let mover := fun (i : ℕ) =>
          ({ chunk_key := chunkKeyOf (chunks.getD i ⟨0, "", "", 0, 0⟩),
             content := (chunks.getD i ⟨0, "", "", 0, 0⟩).content.take 80,
             energy := energyVec.getD i 0,
             delta := delta i } : MoverEntry)
        let promoted :=
          (promotedIdx.filter (fun i => decide ((1 / 1000 : ℝ) < delta i))).map mover
        let demoted :=
          (demotedIdx.filter (fun i => decide (delta i < -(1 / 1000 : ℝ)))).map mover
        let avgB := (∑ i ∈ Finset.range N, simsBefore i) / (N : ℝ)
        let avgA := (∑ i ∈ Finset.range N, simsAfter i) / (N : ℝ)
        let avgD := (∑ i ∈ Finset.range N, delta i) / (N : ℝ)
        let result : DoneResult :=
          ⟨if dryRun then "dry_run" else "reconsolidated", N, nWith, k,
           keepFrac, strength, avgB, avgA, avgD, promoted, demoted⟩
        if dryRun then (.done result, vm, metrics)
        else
          let Rlist := (List.range N).map (fun i => (List.range D).map (Rprom i))
          let deltaMax := foldMax (delta 0) (((List.range N).drop 1).map delta)
          let deltaMin := foldMin (delta 0) (((List.range N).drop 1).map delta)
          let row : MetricsRow :=
            ⟨now, N, nWith, k, keepFrac, strength, avgB, avgA, avgD,
             deltaMax, deltaMin,
             (energy_map.filter (fun p => decide (0 < p.2))).length,
             promoted.take 5 ++ demoted.take 3⟩
          (.done result,
           { vm with embeddings := write_embeddings chunks Rlist vm.embeddings },
           metrics ++ [row])

/-- C5: the three structured no-op cases of the Engine run. (1) An empty corpus
returns exactly `{"action":"none","error":"no chunks in vmem"}`; (2) an empty
energy map returns `action "none"` with a hint; (3) a nonempty energy map
matching zero current chunk keys returns `action "none"` with an explanatory
hint — and in all three cases the Vector Store and the metrics store are
returned unchanged. -/
theorem c5_noop_cases (vm : VmemStore) (energyRows : List ChunkEnergyRow) (now : ℝ)
    (keepFrac strength : ℝ) (dryRun : Bool) (metrics : List MetricsRow) :
    ((load_vmem_chunks vm).1 = [] →
      reconsolidate vm energyRows now keepFrac strength dryRun metrics
        = (.noop ⟨some "no chunks in vmem", none, none, none⟩, vm, metrics))
    ∧ ((load_vmem_chunks vm).1 ≠ [] →
        load_access_energy energyRows now 168 = [] →
        reconsolidate vm energyRows now keepFrac strength dryRun metrics
          = (.noop ⟨some "no access events yet", some (load_vmem_chunks vm).1.length,
              none,
              some "Run some sessions first — access events are logged at compaction"⟩,
             vm, metrics))
    ∧ ((load_vmem_chunks vm).1 ≠ [] →
        load_access_energy energyRows now 168 ≠ [] →
        (∀ c ∈ (load_vmem_chunks vm).1,
          ¬ 0 < (lookupEnergyMap (load_access_energy energyRows now 168)
                  (chunkKeyOf c)).getD 0) →
        reconsolidate vm energyRows now keepFrac strength dryRun metrics
          = (.noop ⟨none, some (load_vmem_chunks vm).1.length,
              some (load_access_energy energyRows now 168).length,
              some "Access events exist but none match current vmem chunks (chunk keys may have shifted after reindex)"⟩,
             vm, metrics)) := by
  refine ⟨?_, ?_, ?_⟩
  · intro h
    rw [reconsolidate, if_pos (List.isEmpty_iff.mpr h)]
  · intro hne hmap
    rw [reconsolidate, if_neg (by simpa [List.isEmpty_iff] using hne),
        if_pos (List.isEmpty_iff.mpr hmap)]
  · intro hne hmap hzero
    have hn : (((load_vmem_chunks vm).1.map (fun c =>
        (lookupEnergyMap (load_access_energy energyRows now 168)
          (chunkKeyOf c)).getD 0)).filter (fun e => decide (0 < e))).length = 0 := by
      rw [List.length_eq_zero, List.filter_eq_nil_iff]
      intro e he
      obtain ⟨c, hc, rfl⟩ := List.mem_map.mp he
      simpa using hzero c hc
    rw [reconsolidate, if_neg (by simpa [List.isEmpty_iff] using hne),
        if_neg (by simpa [List.isEmpty_iff] using hmap), if_pos hn]

/-- A one-chunk Vector Store for the C5 witness. -/
def c5vm : VmemStore :=
  { chunks := [⟨1, "f", "c", 1, 1⟩], embeddings := [(1, [1])] }

/-- C5 witness: the three no-op cases evaluated concretely — an empty store, a
one-chunk store with no access rows, and a one-chunk store whose only access
row has zero score and a key matching no chunk. -/
theorem c5_witness :
    (reconsolidate {} [] 0 (15 / 100) (3 / 2) false []
      = (.noop ⟨some "no chunks in vmem", none, none, none⟩, {}, []))
    ∧ (reconsolidate c5vm [] 0 (15 / 100) (3 / 2) false []
      = (.noop ⟨some "no access events yet", some (load_vmem_chunks c5vm).1.length,
          none,
          some "Run some sessions first — access events are logged at compaction"⟩,
         c5vm, []))
    ∧ (reconsolidate c5vm [⟨"X", 1, 0, 1⟩] 1 (15 / 100) (3 / 2) false []
      = (.noop ⟨none, some (load_vmem_chunks c5vm).1.length,
          some (load_access_energy [⟨"X", 1, 0, 1⟩] 1 168).length,
          some "Access events exist but none match current vmem chunks (chunk keys may have shifted after reindex)"⟩,
         c5vm, [])) := by
  have hmapeq : load_access_energy [(⟨"X", 1, 0, 1⟩ : ChunkEnergyRow)] 1 168
      = [("X", 0)] := by
    simp [load_access_energy, energyList, normalizeEnergy, foldMax, rawEnergy,
      List.filter]
  have hch : (load_vmem_chunks c5vm).1 = [⟨1, "f", "c", 1, 1⟩] := by decide
  refine ⟨?_, ?_, ?_⟩
  · exact (c5_noop_cases {} [] 0 (15 / 100) (3 / 2) false []).1 rfl
  · exact (c5_noop_cases c5vm [] 0 (15 / 100) (3 / 2) false []).2.1 (by decide) rfl
  · refine (c5_noop_cases c5vm [⟨"X", 1, 0, 1⟩] 1 (15 / 100) (3 / 2) false []).2.2
      (by decide) (by rw [hmapeq]; exact List.cons_ne_nil _ _) ?_
    intro c hc
    rw [hch] at hc
    have hc' : c = ⟨1, "f", "c", 1, 1⟩ := by simpa using hc
    subst hc'
    rw [hmapeq, show chunkKeyOf ⟨1, "f", "c", 1, 1⟩ = "f:1" by decide,
        lookupEnergyMap_cons, if_neg (by decide)]
    simp [lookupEnergyMap]

/-- C1, counterexample to the claim as stated: at write-back time the Vector
Store holds 0 rows while 1 row was read during the transform, yet
`_write_embeddings` performs its write anyway (the store is modified, no abort
occurs) — the source contains no row-count check at all. -/
theorem c1_counterexample :
    (([] : List (ℕ × List ℝ)).length
        ≠ ([(⟨7, "f", "c", 1, 1⟩ : VmemChunk)]).length)
    ∧ write_embeddings [⟨7, "f", "c", 1, 1⟩] [[1]] [] ≠ [] := by
  constructor
  · decide
  · intro hcon
    simp [write_embeddings] at hcon

lemma lookupEmb_filter_append (st : List (ℕ × List ℝ)) (i : ℕ) (e : List ℝ)
    {j : ℕ} (hne : j ≠ i) :
    lookupEmb (st.filter (fun row => row.1 != i) ++ [(i, e)]) j = lookupEmb st j := by
  have hin : ¬ i = j := fun h => hne h.symm
  induction st with
  | nil =>
      simp [lookupEmb, hin]
  | cons q rest ih =>
      obtain ⟨i', v⟩ := q
      by_cases h : i' = i
      · subst h
        simp only [List.filter_cons]
        rw [if_neg (by simp)]
        rw [lookupEmb, if_neg (fun h2 => hne h2.symm)]
        exact ih
      · simp only [List.filter_cons]
        rw [if_pos (by simpa using h)]
        rw [List.cons_append, lookupEmb, lookupEmb]
        by_cases h2 : i' = j
        · rw [if_pos h2, if_pos h2]
        · rw [if_neg h2, if_neg h2]
          exact ih

lemma lookupEmb_step_self (st : List (ℕ × List ℝ)) (i : ℕ) (e : List ℝ) :
    lookupEmb (st.filter (fun row => row.1 != i) ++ [(i, e)]) i = some e := by
  induction st with
  | nil => simp [lookupEmb]
  | cons q rest ih =>
      obtain ⟨i', v⟩ := q
      by_cases h : i' = i
      · subst h
        simp only [List.filter_cons]
        rw [if_neg (by simp)]
        exact ih
      · simp only [List.filter_cons]
        rw [if_pos (by simpa using h)]
        rw [List.cons_append, lookupEmb, if_neg h]
        exact ih

lemma lookupEmb_write_fold (zs : List (VmemChunk × List ℝ)) (st : List (ℕ × List ℝ))
    (hnd : (zs.map (fun p => p.1.id)).Nodup) :
    ∀ p ∈ zs,
      lookupEmb (zs.foldl (fun st ce =>
          st.filter (fun row => row.1 != ce.1.id) ++ [(ce.1.id, ce.2)]) st) p.1.id
        = some p.2 := by
  induction zs generalizing st with
  | nil => intro p hp; cases hp
  | cons ce rest ih =>
      intro p hp
      rw [List.foldl_cons]
      rcases List.mem_cons.mp hp with rfl | hrest
      · have hnotin : p.1.id ∉ rest.map (fun q => q.1.id) :=
          (List.nodup_cons.mp (by simpa using hnd)).1
        have huntouched : ∀ (st' : List (ℕ × List ℝ)) (zs' : List (VmemChunk × List ℝ)),
            p.1.id ∉ zs'.map (fun q => q.1.id) →
            lookupEmb (zs'.foldl (fun st ce =>
              st.filter (fun row => row.1 != ce.1.id) ++ [(ce.1.id, ce.2)]) st') p.1.id
              = lookupEmb st' p.1.id := by
          intro st' zs' hni
          induction zs' generalizing st' with
          | nil => rfl
          | cons ce' rest' ih' =>
              rw [List.foldl_cons]
              rw [List.map_cons] at hni
              have hne : p.1.id ≠ ce'.1.id :=
                fun hcon => hni (hcon ▸ List.mem_cons_self _ _)
              have hrest2 : p.1.id ∉ rest'.map (fun q => q.1.id) :=
                fun hm => hni (List.mem_cons_of_mem _ hm)
              rw [ih' _ hrest2, lookupEmb_filter_append _ _ _ hne]
        rw [huntouched _ rest hnotin, lookupEmb_step_self]
      · exact ih _ (List.nodup_cons.mp (by simpa using hnd)).2 p hrest

lemma mem_write_fold_untouched (zs : List (VmemChunk × List ℝ))
    (st : List (ℕ × List ℝ)) {row : ℕ × List ℝ} (hrow : row ∈ st)
    (hni : ∀ p ∈ zs, row.1 ≠ p.1.id) :
    row ∈ zs.foldl (fun st ce =>
        st.filter (fun row => row.1 != ce.1.id) ++ [(ce.1.id, ce.2)]) st := by
  induction zs generalizing st with
  | nil => exact hrow
  | cons ce rest ih =>
      rw [List.foldl_cons]
      refine ih _ ?_ (fun p hp => hni p (List.mem_cons_of_mem _ hp))
      refine List.mem_append_left _ (List.mem_filter.mpr ⟨hrow, ?_⟩)
      simpa using hni ce (List.mem_cons_self _ _)

/-- C1 (amended): `_write_embeddings` performs its per-row delete-and-insert
for every chunk read during the transform *unconditionally* — whatever the
Vector Store's row count at write-back time, no abort occurs: afterwards every
transformed chunk id maps to its new embedding, and rows whose id was not
transformed survive untouched. -/
theorem c1_writeback_unconditional (chunks : List VmemChunk) (embs : List (List ℝ))
    (store : List (ℕ × List ℝ))
    (hnd : (chunks.map (fun c => c.id)).Nodup)
    (hlen : chunks.length ≤ embs.length) :
    (∀ p ∈ chunks.zip embs,
        lookupEmb (write_embeddings chunks embs store) p.1.id = some p.2)
    ∧ (∀ row ∈ store, (∀ c ∈ chunks, row.1 ≠ c.id) →
        row ∈ write_embeddings chunks embs store) := by
  have hkeys : (chunks.zip embs).map (fun p => p.1.id)
      = chunks.map (fun c => c.id) := by
    have h1 : (chunks.zip embs).map Prod.fst = chunks := List.map_fst_zip _ _ hlen
    rw [show (fun p : VmemChunk × List ℝ => p.1.id)
          = (fun c => c.id) ∘ Prod.fst from rfl, ← List.map_map, h1]
  constructor
  · exact lookupEmb_write_fold _ _ (by rw [hkeys]; exact hnd)
  · intro row hrow hni
    refine mem_write_fold_untouched _ _ hrow ?_
    intro p hp
    exact hni p.1 (List.of_mem_zip hp).1

/-- C1 witness: with one transformed chunk (id 7) and a write-back store
holding an unrelated row (id 9) — note the row counts 1 and 1 here, but the
theorem needs no relation between them — the new embedding lands under id 7
and the unrelated row survives. -/
theorem c1_witness :
    lookupEmb (write_embeddings [⟨7, "f", "c", 1, 1⟩] [[1]] [(9, [5])]) 7 = some [1]
    ∧ ((9 : ℕ), ([5] : List ℝ))
        ∈ write_embeddings [⟨7, "f", "c", 1, 1⟩] [[1]] [(9, [5])] := by
  have h := c1_writeback_unconditional [⟨7, "f", "c", 1, 1⟩] [[1]] [(9, [5])]
    (by decide) (by decide)
  constructor
  · exact h.1 (⟨7, "f", "c", 1, 1⟩, [1]) (List.mem_singleton_self _)
  · refine h.2 (9, [5]) (List.mem_singleton_self _) ?_
    intro c hc
    have hc' : c = ⟨7, "f", "c", 1, 1⟩ := by simpa using hc
    subst hc'
    decide

/-! ## Mirror analyzer (`mirror.py`) -/

/-- Python `str.lower` (per character). -/
def lowerStr (s : String) : String := ⟨s.data.map Char.toLower⟩

/-- Split a character list at every character satisfying `p` (keeping empty
segments, as Python `str.split(sep)` does). -/
def splitPred (p : Char → Bool) : List Char → List (List Char)
  | [] => [[]]
  | c :: cs =>
      if p c then [] :: splitPred p cs
      else
        match splitPred p cs with
        | [] => [[c]]
        | h :: t => (c :: h) :: t

/-- Python `str.split(c)` for a single-character separator. -/
def strSplitChar (c : Char) (s : String) : List String :=
  (splitPred (fun x => x == c) s.data).map (fun l => (⟨l⟩ : String))

/-- Python's bare `str.split()`: split on whitespace and drop empty parts. -/
def pySplitWs (s : String) : List String :=
  ((splitPred Char.isWhitespace s.data).map (fun l => (⟨l⟩ : String))).filter
    (fun t => t != "")

/-- Python slicing `s[:n]` (by characters). -/
def strTake (n : ℕ) (s : String) : String := ⟨s.data.take n⟩

/-- Python `str.replace(pat, rep)`: leftmost non-overlapping replacement (the
source never calls it with an empty pattern, which the guard skips). -/
def replaceL (pat rep : List Char) : List Char → List Char
  | [] => []
  | c :: cs =>
      if pat ≠ [] ∧ pat.isPrefixOf (c :: cs) then
        rep ++ replaceL pat rep (cs.drop (pat.length - 1))
      else c :: replaceL pat rep cs
termination_by l => l.length
decreasing_by
  · simp only [List.length_drop, List.length_cons]
    omega
  · simp only [List.length_cons]
    omega

/-- Python `str.replace` on strings. -/
def strReplace (s pat rep : String) : String := ⟨replaceL pat.data rep.data s.data⟩

/-- Increment (or create) a counter entry by `n`, preserving first-occurrence
order as Python dicts and `Counter` do. -/
def counterBump {α : Type} [BEq α] (c : List (α × ℕ)) (a : α) (n : ℕ) : List (α × ℕ) :=
  if c.any (fun p => p.1 == a) then
    c.map (fun p => if p.1 == a then (p.1, p.2 + n) else p)
  else c ++ [(a, n)]

/-- Source line `collections.Counter` over a list. -/
def counterOfList {α : Type} [BEq α] (l : List α) : List (α × ℕ) :=
  l.foldl (fun c a => counterBump c a 1) []

/-- Source line `Counter.most_common(n)`: stable sort by count descending, take `n`. -/
def mostCommon {α : Type} (c : List (α × ℕ)) (n : ℕ) : List (α × ℕ) :=
  (sSort (fun p q => decide (q.2 ≤ p.2)) c).take n

/-- One event as `load_access_data` returns it. -/
structure MirrorEvent where
  ts : ℚ
  session : Option String := none
  query : String := ""
  results : List ResultRec := []
  n_results : ℕ := 0
  top_score : ℚ := 0
deriving DecidableEq

/-- One `chunk_energy` row as `load_access_data` returns it. -/
structure MirrorChunk where
  accesses : ℕ
  score : ℚ
  last : ℚ
  first : ℚ
deriving DecidableEq

/-- Source line `sid = event["session"] or "unknown"` (both `None` and `""` are falsy). -/
def sidOf (e : MirrorEvent) : String :=
  match e.session with
  | none => "unknown"
  | some s => if s = "" then "unknown" else s

/-- Source line `f"{r.get('file', '?')}:{r.get('lines', '?')}"` as the mirror builds chunk
keys (no `path`/`line` fallback here, unlike the access logger). -/
def mirrorKey (r : ResultRec) : String := r.file.getD "?" ++ ":" ++ r.lines.getD "?"

/-- The events of the last `days` days, ordered by timestamp
(`WHERE timestamp > cutoff ORDER BY timestamp`). -/
def windowEvents (events : List MirrorEvent) (now : ℚ) (days : ℕ) : List MirrorEvent :=
  sSort (fun a b => decide (a.ts ≤ b.ts))
    (events.filter (fun e => decide (now - (days * 86400 : ℚ) < e.ts)))

/-- Python's `round(q, 2)` (Mathlib's `round` is half-up where Python rounds
half-to-even; the value is stored in the hot entries but never rendered). -/
def roundQ2 (q : ℚ) : ℚ := (round (q * 100) : ℤ) / 100

/-- Source line `analyze_hot_cold`: chunks sorted by accesses descending (stable), top 10,
with the rounded score the source stores alongside. -/
def hotChunks (chunks : List (String × MirrorChunk)) : List (String × ℕ × ℚ) :=
  ((sSort (fun a b => decide (b.2.accesses ≤ a.2.accesses)) chunks).take 10).map
    (fun p => (p.1, p.2.accesses, roundQ2 p.2.score))

/-- Source line `analyze_gaps`: queries with zero results or zero top score, ranked by
repeat count, top 15. -/
def analyze_gaps (events : List MirrorEvent) : List (String × ℕ) :=
  mostCommon (counterOfList
    ((events.filter (fun e => e.n_results == 0 || e.top_score == 0)).map
      (fun e => e.query))) 15

/-- Append a value to the group of `key`, preserving first-occurrence group
order (Python `defaultdict(list)` insertion order). -/
def groupAppend (g : List (String × List String)) (key : String) (v : String) :
    List (String × List String) :=
  if g.any (fun p => p.1 == key) then
    g.map (fun p => if p.1 == key then (p.1, p.2 ++ [v]) else p)
  else g ++ [(key, [v])]

/-- The queries of each session, in order. -/
def sessionQueries (events : List MirrorEvent) : List (String × List String) :=
  events.foldl (fun g e => groupAppend g (sidOf e) e.query) []

/-- Source line `" ".join(q.lower().split()[:3])`. -/
def patternKey (q : String) : String :=
  " ".intercalate ((pySplitWs (lowerStr q)).take 3)

/-- Source line `analyze_friction`: per-session pattern counts of size ≥ 2, aggregated
across sessions, top 10 by total repeats. -/
def analyze_friction (events : List MirrorEvent) : List (String × ℕ) :=
  let friction := (sessionQueries events).foldl (fun acc sq =>
    acc ++ ((counterOfList (sq.2.map patternKey)).filter (fun p => decide (2 ≤ p.2)))) []
  mostCommon (friction.foldl (fun c p => counterBump c p.1 p.2) []) 10

/-- Add to a set kept as a duplicate-free list in insertion order. -/
def setAdd (l : List String) (a : String) : List String :=
  if l.any (fun x => x == a) then l else l ++ [a]

/-- Add a value to the set grouped under `key`. -/
def groupSetAdd (g : List (String × List String)) (key : String) (v : String) :
    List (String × List String) :=
  if g.any (fun p => p.1 == key) then
    g.map (fun p => if p.1 == key then (p.1, setAdd p.2 v) else p)
  else g ++ [(key, [v])]

/-- Per session, the set of result chunk keys. -/
def sessionChunkSets (events : List MirrorEvent) : List (String × List String) :=
  events.foldl (fun g e =>
    e.results.foldl (fun g' r => groupSetAdd g' (sidOf e) (mirrorKey r)) g) []

/-- Source line `sorted(chunks)` on strings followed by the ordered pairs `i < j`. -/
def pairsOf : List String → List (String × String)
  | [] => []
  | x :: xs => xs.map (fun y => (x, y)) ++ pairsOf xs

/-- Source line `analyze_resonance`: unordered-pair co-occurrence counts across sessions,
top 20, kept when ≥ 2. -/
def analyze_resonance (events : List MirrorEvent) : List ((String × String) × ℕ) :=
  (mostCommon ((sessionChunkSets events).foldl (fun c sq =>
      (pairsOf (sSort (fun a b => !(decide (b < a))) sq.2)).foldl
        (fun c' pr => counterBump c' pr 1) c) []) 20).filter
    (fun p => decide (2 ≤ p.2))

/-- Source line `data["chunks"].get(chunk_key, {}).get("accesses", 0)`. -/
def chunkAccesses (chunks : List (String × MirrorChunk)) (k : String) : ℕ :=
  match chunks.find? (fun p => p.1 == k) with
  | none => 0
  | some p => p.2.accesses

/-- The fixed boot-context file set. -/
def bootFiles : List String :=
  ["MEMORY.md", "SOUL.md", "USER.md", "IDENTITY.md", "TOOLS.md", "AGENTS.md",
   "HEARTBEAT.md"]

/-- Per chunk key, the set of sessions naming it. -/
def chunkSessionSets (events : List MirrorEvent) : List (String × List String) :=
  events.foldl (fun g e =>
    e.results.foldl (fun g' r => groupSetAdd g' (mirrorKey r) (sidOf e)) g) []

/-- Promotion candidates: accesses ≥ 5, ≥ 3 distinct sessions, file not in the
boot set; each entry `(key, accesses, sessions)`. -/
def promotionList (events : List MirrorEvent) (chunks : List (String × MirrorChunk)) :
    List (String × ℕ × ℕ) :=
  (chunkSessionSets events).foldl (fun acc ks =>
    let fp := (strSplitChar ':' ks.1).headD ""
    if fp ∈ bootFiles then acc
    else
      let a := chunkAccesses chunks ks.1
      if 5 ≤ a ∧ 3 ≤ ks.2.length then acc ++ [(ks.1, a, ks.2.length)] else acc) []

/-- The hot-list key compression (`MEMORY.md:51 → M:51`,
`memory/2026-02-07.md:1 → m/0207:1`, else truncate to 15 characters). -/
def shortHotKey (key : String) : String :=
  if strStartsWith key "MEMORY.md:" then "M:" ++ ((strSplitChar ':' key).getD 1 "")
  else if strStartsWith key "memory/" then
    let parts := strSplitChar ':' (strReplace key "memory/" "")
    let datePart :=
      strReplace (strReplace (strReplace (parts.headD "") "2026-" "") "-" "") ".md" ""
    if 1 < parts.length then "m/" ++ datePart ++ ":" ++ (parts.getD 1 "")
    else "m/" ++ datePart
  else
    let s := strReplace (strReplace key ".md" "") ":" "→"
    if 15 < s.data.length then strTake 15 s else s

/-- The resonance key compression. -/
def shortResKey (a : String) : String :=
  strReplace (strReplace (strReplace a "MEMORY.md" "M") "memory/" "m/") ".md" ""

/-- Source line `toString` on a count. -/
def natStr (n : ℕ) : String := toString n

/-- The body lines of the mirror file for a nonempty window. -/
def mirrorLines (w : List MirrorEvent) (chunks : List (String × MirrorChunk))
    (toolFails : List (String × ℕ)) (today : String) : List String :=
  let hot := hotChunks chunks
  let gaps := analyze_gaps w
  let friction := analyze_friction w
  let resonance := analyze_resonance w
  let l0 := ["# mirror [" ++ today ++ "]", ""]
  let l1 := if hot.isEmpty then l0 else
    l0 ++ ["hot: " ++ " ".intercalate ((hot.take 8).map
      (fun p => shortHotKey p.1 ++ "(" ++ natStr p.2.1 ++ "x)"))]
  let l2 := if gaps.isEmpty then l1 else
    l1 ++ ["gaps: " ++ " | ".intercalate ((gaps.take 5).map
      (fun g => "\"" ++ strTake 40 g.1 ++ "\"(" ++ natStr g.2 ++ "x)"))]
  let l3 := if friction.isEmpty then l2 else
    l2 ++ ["friction: " ++ " | ".intercalate ((friction.take 5).map
      (fun f => f.1 ++ "(" ++ natStr f.2 ++ "x)"))]
  let l4 := if resonance.isEmpty then l3 else
    l3 ++ ("resonance:" :: (resonance.take 5).map
      (fun p => "  " ++ shortResKey p.1.1 ++ " ↔ " ++ shortResKey p.1.2
        ++ " (" ++ natStr p.2 ++ "s)"))
  let l5 := if toolFails.isEmpty then l4 else
    l4 ++ ["errors: " ++ " ".intercalate ((toolFails.take 5).map
      (fun f => f.1 ++ "(" ++ natStr f.2 ++ "x)"))]
  let promos := sSort (fun a b => decide (b.2.1 ≤ a.2.1)) (promotionList w chunks)
  let l6 := if promos.isEmpty then l5 else
    l5 ++ ["promote: " ++ " | ".intercalate ((promos.take 5).map
      (fun p => p.1 ++ "(" ++ natStr p.2.1 ++ "x/" ++ natStr p.2.2 ++ "s)"))]
  l6 ++ ["", "stats: " ++ natStr w.length ++ "ev/"
    ++ natStr ((w.map (fun e => e.query)).eraseDups.length) ++ "uq/"
    ++ natStr (((w.filterMap (fun e => e.session)).filter
        (fun s => s != "")).eraseDups.length) ++ "sess/14d"]

/-- Source line `generate_mirror(dry_run)` over the loaded access data, the tool-failure
scan result (a filesystem boundary, passed in), and today's date string.
Returns the content and, when a write happens, the written file content. -/
def generate_mirror (allEvents : List MirrorEvent) (chunks : List (String × MirrorChunk))
    (toolFails : List (String × ℕ)) (today : String) (now : ℚ) (dry_run : Bool) :
    String × Option String :=
  match windowEvents allEvents now 14 with
  | [] => ("# mirror — no access data yet\n", none)
  | e :: rest =>
      let content :=
        "\n".intercalate (mirrorLines (e :: rest) chunks toolFails today) ++ "\n"
      (content, if dry_run then none else some content)

/-- C10: when the 14-day access window holds zero events, `generate_mirror`
returns the fixed string `"# mirror — no access data yet\n"` and writes
nothing, even when `dry_run` is false; and the output file is written only
when the window is nonempty and `dry_run` is false (and then it is exactly the
returned content). -/
theorem c10_mirror_empty_window (allEvents : List MirrorEvent)
    (chunks : List (String × MirrorChunk)) (toolFails : List (String × ℕ))
    (today : String) (now : ℚ) (dryRun : Bool) :
    (windowEvents allEvents now 14 = [] →
      generate_mirror allEvents chunks toolFails today now dryRun
        = ("# mirror — no access data yet\n", none))
    ∧ (∀ s, (generate_mirror allEvents chunks toolFails today now dryRun).2 = some s →
        windowEvents allEvents now 14 ≠ [] ∧ dryRun = false
          ∧ s = (generate_mirror allEvents chunks toolFails today now dryRun).1) := by
  constructor
  · intro h
    rw [generate_mirror, h]
  · intro s hs
    rcases hw : windowEvents allEvents now 14 with _ | ⟨e, rest⟩
    · rw [generate_mirror, hw] at hs
      cases hs
    · rw [generate_mirror, hw] at hs ⊢
      cases dryRun with
      | true => simp at hs
      | false =>
          simp only [if_neg Bool.false_ne_true] at hs
          refine ⟨by simp [hw], rfl, ?_⟩
          simpa using hs.symm

/-- C10 witness: with no events at all (hence an empty window) and
`dry_run = false`, the mirror returns the fixed placeholder and writes
nothing. -/
theorem c10_witness :
    generate_mirror [] [] [] "2026-10-12" 0 false
      = ("# mirror — no access data yet\n", none)
    ∧ (generate_mirror [] [] [] "2026-10-12" 0 false).2 = none := by
  have h := (c10_mirror_empty_window [] [] [] "2026-10-12" 0 false).1 rfl
  exact ⟨h, by rw [h]⟩
